import Mathlib

/-!
Verification of the nel-collector report pipeline.

We shallowly embed the Go sources of google/nel-collector: the JSON report
codec, the annotation store, the processor built-ins (KeepNelReports, the CLF
report dumper), the pipeline ingress (`Pipeline.ProcessReports`), the CORS
handlers, the TOML config loader (`Pipeline.LoadFromConfig`) and the hot-swap
handler.  Machine strings are `List Char`; fallible operations return
`Except`/`Option`; the bounded channel is a list with a capacity; the
concurrent hot-swap handler is a small-step interleaving machine.
-/

set_option maxRecDepth 100000

namespace NelCollector

/-- Byte strings of the Go sources are modelled as lists of characters. -/
abbrev Chars := List Char

instance {e a : Type} [DecidableEq e] [DecidableEq a] : DecidableEq (Except e a) := by
  intro x y
  cases x <;> cases y <;>
    first
      | (rename_i u v
         exact match decEq u v with
           | isTrue h => isTrue (by rw [h])
           | isFalse h => isFalse (by intro hc; injection hc; exact h (by assumption)))
      | exact isFalse (by intro hc; exact Except.noConfusion hc)

/-! ## Decimal digits

Helpers for rendering and reading base-10 numerals, modelling Go's
`strconv`/`encoding/json` numeric formatting. -/


/-- The character for a single decimal digit. -/
def digitCh (d : Nat) : Char := Char.ofNat (48 + d)

/-- Whether a character is a decimal digit. -/
def isDigitCh (c : Char) : Bool := 48 ≤ c.toNat && c.toNat ≤ 57

/-- Numeric value of a digit character. -/
def chVal (c : Char) : Nat := c.toNat - 48

/-- Fuel-indexed digit emitter: the decimal digits of `n`, most significant
first, computed by repeated division. -/
def natDigitsAux : Nat → Nat → Chars
  | 0, _ => []
  | _ + 1, 0 => []
  | fuel + 1, n + 1 => natDigitsAux fuel ((n + 1) / 10) ++ [digitCh ((n + 1) % 10)]

/-- Decimal numeral of a natural number, most significant digit first. -/
def natDigits (n : Nat) : Chars :=
  if n = 0 then ['0'] else natDigitsAux n n

/-- Value of a decimal numeral (most significant digit first). -/
def digitsVal (l : Chars) : Nat := l.foldl (fun a c => a * 10 + chVal c) 0

/-- Decimal numeral padded with leading zeros to at least `e` characters. -/
def natDigitsPad (e n : Nat) : Chars :=
  List.replicate (e - (natDigits n).length) '0' ++ natDigits n

/-! ## JSON values

Model of the JSON fragment handled by `encoding/json` as used by the report
codec: null, booleans, decimal numbers (kept as their literal digit strings so
that raw bytes are preserved exactly), strings, arrays and objects. -/


/-- A JSON value.  A number is stored as its sign, integer-part digits and
fraction-part digits (empty fraction = no decimal point). -/
inductive Json where
  | null : Json
  | bool (b : Bool) : Json
  | num (neg : Bool) (ip fp : Chars) : Json
  | str (s : Chars) : Json
  | arr (elems : List Json) : Json
  | obj (entries : List (Chars × Json)) : Json

/-- JSON string escaping for one character (we model the two escapes the
codec itself produces: quote and backslash). -/
def escCh (c : Char) : Chars := if c = '"' || c = '\\' then ['\\', c] else [c]

/-- Serialized body of a JSON string (no surrounding quotes). -/
def serStrBody (s : Chars) : Chars := s.flatMap escCh

/-- Serialized JSON string, quotes included. -/
def serStr (s : Chars) : Chars := '"' :: serStrBody s ++ ['"']

/-- Serialized JSON number from its literal parts. -/
def serNum (neg : Bool) (ip fp : Chars) : Chars :=
  (if neg then ['-'] else []) ++ ip ++ (if fp = [] then [] else '.' :: fp)

mutual

/-- Compact serialization of a JSON value (no whitespace), modelling
`json.Marshal` output shape. -/
def serialize : Json → Chars
  | .null => ['n', 'u', 'l', 'l']
  | .bool b => if b then ['t', 'r', 'u', 'e'] else ['f', 'a', 'l', 's', 'e']
  | .num neg ip fp => serNum neg ip fp
  | .str s => serStr s
  | .arr l => '[' :: serArrElems l ++ [']']
  | .obj l => '{' :: serObjEntries l ++ ['}']

/-- Serialized array elements, comma separated. -/
def serArrElems : List Json → Chars
  | [] => []
  | [v] => serialize v
  | v :: w :: rest => serialize v ++ ',' :: serArrElems (w :: rest)

/-- Serialized object entries, comma separated. -/
def serObjEntries : List (Chars × Json) → Chars
  | [] => []
  | [(k, v)] => serStr k ++ ':' :: serialize v
  | (k, v) :: e :: rest => serStr k ++ ':' :: serialize v ++ ',' :: serObjEntries (e :: rest)

end

mutual

/-- Well-formedness of number literals inside a JSON value: integer parts are
nonempty digit strings and fraction parts are digit strings.  Serialization
followed by parsing is the identity on well-formed values. -/
def JsonWF : Json → Prop
  | .null => True
  | .bool _ => True
  | .num _ ip fp => ip ≠ [] ∧ (∀ c ∈ ip, isDigitCh c = true) ∧ (∀ c ∈ fp, isDigitCh c = true)
  | .str _ => True
  | .arr l => JsonWFList l
  | .obj l => JsonWFEntries l

/-- Well-formedness of a list of JSON values. -/
def JsonWFList : List Json → Prop
  | [] => True
  | v :: rest => JsonWF v ∧ JsonWFList rest

/-- Well-formedness of a list of JSON object entries. -/
def JsonWFEntries : List (Chars × Json) → Prop
  | [] => True
  | e :: rest => JsonWF e.2 ∧ JsonWFEntries rest

end

mutual

/-- Structural size of a JSON value, used to bound parser fuel. -/
def jsize : Json → Nat
  | .null => 1
  | .bool _ => 1
  | .num _ _ _ => 1
  | .str _ => 1
  | .arr l => 1 + jsizeList l
  | .obj l => 1 + jsizeEntries l

/-- Structural size of a list of JSON values. -/
def jsizeList : List Json → Nat
  | [] => 1
  | v :: rest => 1 + jsize v + jsizeList rest

/-- Structural size of a list of JSON object entries. -/
def jsizeEntries : List (Chars × Json) → Nat
  | [] => 1
  | e :: rest => 1 + jsize e.2 + jsizeEntries rest

end

/-! ## JSON parsing

A fuel-indexed recursive-descent parser for the JSON fragment above.  Each
parsing function returns the parsed value together with the unconsumed rest of
the input; `json.RawMessage` capture is modelled by taking the consumed
characters of a value. -/


/-- JSON insignificant whitespace. -/
def isWs (c : Char) : Bool := c = ' ' || c = '\n' || c = '\t' || c = '\r'

/-- Skip leading whitespace. -/
def skipWs : Chars → Chars
  | [] => []
  | c :: rest => if isWs c then skipWs rest else c :: rest

/-- Strip an expected literal from the front of the input. -/
def stripLit : Chars → Chars → Option Chars
  | [], s => some s
  | c :: l, d :: s => if c = d then stripLit l s else none
  | _ :: _, [] => none

/-- Parse the body of a JSON string up to and including the closing quote,
unescaping backslash escapes. -/
def parseStrBody : Chars → Except Chars (Chars × Chars)
  | [] => .error "unexpected end of JSON input".toList
  | c :: rest =>
    if c = '"' then .ok ([], rest)
    else if c = '\\' then
      match rest with
      | [] => .error "unexpected end of JSON input".toList
      | d :: rest2 =>
        match parseStrBody rest2 with
        | .error e => .error e
        | .ok (s, r) => .ok (d :: s, r)
    else
      match parseStrBody rest with
      | .error e => .error e
      | .ok (s, r) => .ok (c :: s, r)

/-- Take the longest prefix of decimal digits. -/
def takeDigits : Chars → Chars × Chars
  | [] => ([], [])
  | c :: rest =>
    if isDigitCh c then
      let p := takeDigits rest
      (c :: p.1, p.2)
    else ([], c :: rest)

/-- Split a leading minus sign off a number literal. -/
def numSign : Chars → Bool × Chars
  | '-' :: r => (true, r)
  | s => (false, s)

/-- Parse a JSON number literal. -/
def parseNum (s : Chars) : Except Chars (Json × Chars) :=
  if (takeDigits (numSign s).2).1 = [] then
    .error "invalid character in number literal".toList
  else
    match (takeDigits (numSign s).2).2 with
    | '.' :: s3 =>
      if (takeDigits s3).1 = [] then
        .error "invalid character in number literal".toList
      else
        .ok (.num (numSign s).1 (takeDigits (numSign s).2).1 (takeDigits s3).1, (takeDigits s3).2)
    | _ => .ok (.num (numSign s).1 (takeDigits (numSign s).2).1 [], (takeDigits (numSign s).2).2)

/-- Parse a fixed keyword literal (the tail of `null`, `true` or `false`),
yielding the given value. -/
def parseLit (lit : Chars) (v : Json) (s : Chars) : Except Chars (Json × Chars) :=
  match stripLit lit s with
  | some r => .ok (v, r)
  | none => .error "invalid character looking for value".toList

/-- Parse a JSON string value (after the opening quote). -/
def parseStrVal (s : Chars) : Except Chars (Json × Chars) :=
  match parseStrBody s with
  | .error e => .error e
  | .ok (str, r) => .ok (.str str, r)

/-- Parse a JSON array (after the opening bracket), given a parser for the
remaining elements of a nonempty array. -/
def parseArrStart (pA : Chars → Except Chars (List Json × Chars)) (s : Chars) :
    Except Chars (Json × Chars) :=
  match skipWs s with
  | ']' :: r2 => .ok (.arr [], r2)
  | r2 =>
    match pA r2 with
    | .error e => .error e
    | .ok (l, r3) => .ok (.arr l, r3)

/-- Parse a JSON object (after the opening brace), given a parser for the
remaining entries of a nonempty object. -/
def parseObjStart (pO : Chars → Except Chars (List (Chars × Json) × Chars)) (s : Chars) :
    Except Chars (Json × Chars) :=
  match skipWs s with
  | '}' :: r2 => .ok (.obj [], r2)
  | r2 =>
    match pO r2 with
    | .error e => .error e
    | .ok (l, r3) => .ok (.obj l, r3)

mutual

/-- Parse one JSON value. -/
def parseJson : Nat → Chars → Except Chars (Json × Chars)
  | 0, _ => .error "maximum depth exceeded".toList
  | fuel + 1, s =>
    match skipWs s with
    | [] => .error "unexpected end of JSON input".toList
    | c :: rest =>
      if c = 'n' then parseLit ['u', 'l', 'l'] .null rest
      else if c = 't' then parseLit ['r', 'u', 'e'] (.bool true) rest
      else if c = 'f' then parseLit ['a', 'l', 's', 'e'] (.bool false) rest
      else if c = '"' then parseStrVal rest
      else if c = '[' then parseArrStart (parseArrRest fuel) rest
      else if c = '{' then parseObjStart (parseObjRest fuel) rest
      else if c = '-' || isDigitCh c then parseNum (c :: rest)
      else .error "invalid character looking for value".toList

/-- Parse the elements of a nonempty JSON array, including the closing
bracket. -/
def parseArrRest : Nat → Chars → Except Chars (List Json × Chars)
  | 0, _ => .error "maximum depth exceeded".toList
  | fuel + 1, s =>
    match parseJson fuel s with
    | .error e => .error e
    | .ok (v, s1) =>
      match skipWs s1 with
      | ',' :: s2 =>
        match parseArrRest fuel s2 with
        | .error e => .error e
        | .ok (l, s3) => .ok (v :: l, s3)
      | ']' :: s2 => .ok ([v], s2)
      | _ => .error "invalid character after array element".toList

/-- Parse the entries of a nonempty JSON object, including the closing
brace. -/
def parseObjRest : Nat → Chars → Except Chars (List (Chars × Json) × Chars)
  | 0, _ => .error "maximum depth exceeded".toList
  | fuel + 1, s =>
    match skipWs s with
    | '"' :: s1 =>
      match parseStrBody s1 with
      | .error e => .error e
      | .ok (k, s2) =>
        match skipWs s2 with
        | ':' :: s3 =>
          match parseJson fuel s3 with
          | .error e => .error e
          | .ok (v, s4) =>
            match skipWs s4 with
            | ',' :: s5 =>
              match parseObjRest fuel s5 with
              | .error e => .error e
              | .ok (l, s6) => .ok ((k, v) :: l, s6)
            | '}' :: s5 => .ok ([(k, v)], s5)
            | _ => .error "invalid character after object entry".toList
        | _ => .error "invalid character after object key".toList
    | _ => .error "invalid character looking for object key".toList

end

/-! ### Parsing inverts serialization -/


/-- Whether the rest of the input cannot extend a just-parsed number token. -/
def stopTok : Chars → Bool
  | [] => true
  | c :: _ => !isDigitCh c && !(c = '.')

/-- Whether the input does not begin with a digit. -/
def notDigitStart : Chars → Bool
  | [] => true
  | c :: _ => !isDigitCh c

/-- Fuel sufficient to parse any value serialized into the input. -/
def jfuel (s : Chars) : Nat := 2 * s.length + 4

/-- Parse a JSON value with the canonical fuel. -/
def parseJsonTop (s : Chars) : Except Chars (Json × Chars) := parseJson (jfuel s) s

/-! ## Report model

`report.go` (the `NelReport` struct, its spec-aware JSON codec, and
`NewReportBatch`) is not among the sources; the definitions below are
modelled from the spec. -/


/-- An annotation value (spec section 9: a tagged variant of the dynamic
values processors attach). -/
inductive AnnVal where
  | bytes (b : Chars) : AnnVal
  | strv (s : Chars) : AnnVal
  | intv (n : Int) : AnnVal
deriving DecidableEq

/-- An annotation store: named typed values. -/
abbrev AnnMap := List (Chars × AnnVal)

/-- Modelled from the spec: one NEL observation (spec section 3).  Typed NEL
fields are populated only for `ReportType = "network-error"`; other report
types keep the verbatim body bytes in `rawBody`.  `samplingFraction` is a
decimal number kept as mantissa and number of decimal places. -/
structure NelReport where
  age : Int := 0
  reportType : Chars := []
  url : Chars := []
  referrer : Chars := []
  samplingFraction : Int × Nat := (0, 0)
  serverIP : Chars := []
  protocol : Chars := []
  method : Chars := []
  statusCode : Int := 0
  elapsedTime : Int := 0
  phase : Chars := []
  typ : Chars := []
  rawBody : Chars := []
  anns : AnnMap := []
deriving DecidableEq, Inhabited

/-- The NEL report type string. -/
def networkError : Chars := ['n', 'e', 't', 'w', 'o', 'r', 'k', '-', 'e', 'r', 'r', 'o', 'r']

/-! ### JSON number conversions (modelling Go struct-field unmarshalling) -/


/-- Decode a JSON number literal into an integer field; a fractional part is
a type error, as in Go. -/
def intOfNum (neg : Bool) (ip fp : Chars) : Except Chars Int :=
  if fp = [] then
    .ok (if neg then -(digitsVal ip : Int) else (digitsVal ip : Int))
  else .error ['n', 'o', 't', ' ', 'a', 'n', ' ', 'i', 'n', 't']

/-- Encode an integer as a JSON number. -/
def numOfInt (n : Int) : Json := .num (decide (n < 0)) (natDigits n.natAbs) []

/-- Decode a JSON number literal into (mantissa, decimal places). -/
def decOfNum (neg : Bool) (ip fp : Chars) : Int × Nat :=
  let m : Nat := digitsVal ip * 10 ^ fp.length + digitsVal fp
  ((if neg then -(m : Int) else (m : Int)), fp.length)

/-- Encode (mantissa, decimal places) as a JSON number. -/
def numOfDec (m : Int) (e : Nat) : Json :=
  if e = 0 then numOfInt m
  else .num (decide (m < 0)) (natDigits (m.natAbs / 10 ^ e)) (natDigitsPad e (m.natAbs % 10 ^ e))

/-- Decode a JSON value into a string field. -/
def jsonStr : Json → Except Chars Chars
  | .str s => .ok s
  | _ => .error ['n', 'o', 't', ' ', 'a', ' ', 's', 't', 'r', 'i', 'n', 'g']

/-- Decode a JSON value into an integer field. -/
def jsonInt : Json → Except Chars Int
  | .num neg ip fp => intOfNum neg ip fp
  | _ => .error ['n', 'o', 't', ' ', 'a', ' ', 'n', 'u', 'm', 'b', 'e', 'r']

/-- Decode a JSON value into a decimal field. -/
def jsonDec : Json → Except Chars (Int × Nat)
  | .num neg ip fp => .ok (decOfNum neg ip fp)
  | _ => .error ['n', 'o', 't', ' ', 'a', ' ', 'n', 'u', 'm', 'b', 'e', 'r']

/-! ### Spec-aware report decoding (spec section 4.A) -/


/-- One parsed top-level report-object entry: key, value, and the raw bytes
of the value (Go `json.RawMessage` capture). -/
abbrev RepEntry := Chars × Json × Chars

/-- The intermediate form of a report object before the body is interpreted
(Go `rawNelReport`: `age`, `type`, `url` and the raw `body`). -/
structure RawNelReport where
  age : Int := 0
  reportType : Chars := []
  url : Chars := []
  body : Option (Json × Chars) := none
deriving Inhabited

/-- Fold the top-level entries of a report object, reading `age`, `type`,
`url` and capturing `body`; later duplicates win and unknown keys are
ignored, as in `encoding/json`. -/
def foldRepEntries : RawNelReport → List RepEntry → Except Chars RawNelReport
  | acc, [] => .ok acc
  | acc, (k, v, raw) :: rest =>
    if k = ['a', 'g', 'e'] then
      match jsonInt v with
      | .error e => .error e
      | .ok n => foldRepEntries { acc with age := n } rest
    else if k = ['t', 'y', 'p', 'e'] then
      match jsonStr v with
      | .error e => .error e
      | .ok s0 => foldRepEntries { acc with reportType := s0 } rest
    else if k = ['u', 'r', 'l'] then
      match jsonStr v with
      | .error e => .error e
      | .ok s0 => foldRepEntries { acc with url := s0 } rest
    else if k = ['b', 'o', 'd', 'y'] then
      foldRepEntries { acc with body := some (v, raw) } rest
    else foldRepEntries acc rest

/-- Fold the entries of a `network-error` body object into the typed NEL
fields, using the spec field names; unknown keys are ignored. -/
def foldNelBody : NelReport → List (Chars × Json) → Except Chars NelReport
  | acc, [] => .ok acc
  | acc, (k, v) :: rest =>
    if k = ['r', 'e', 'f', 'e', 'r', 'r', 'e', 'r'] then
      match jsonStr v with
      | .error e => .error e
      | .ok s0 => foldNelBody { acc with referrer := s0 } rest
    else if k = ['s', 'a', 'm', 'p', 'l', 'i', 'n', 'g', '-', 'f', 'r', 'a', 'c', 't', 'i', 'o', 'n'] then
      match jsonDec v with
      | .error e => .error e
      | .ok d => foldNelBody { acc with samplingFraction := d } rest
    else if k = ['s', 'e', 'r', 'v', 'e', 'r', '-', 'i', 'p'] then
      match jsonStr v with
      | .error e => .error e
      | .ok s0 => foldNelBody { acc with serverIP := s0 } rest
    else if k = ['p', 'r', 'o', 't', 'o', 'c', 'o', 'l'] then
      match jsonStr v with
      | .error e => .error e
      | .ok s0 => foldNelBody { acc with protocol := s0 } rest
    else if k = ['m', 'e', 't', 'h', 'o', 'd'] then
      match jsonStr v with
      | .error e => .error e
      | .ok s0 => foldNelBody { acc with method := s0 } rest
    else if k = ['s', 't', 'a', 't', 'u', 's', '-', 'c', 'o', 'd', 'e'] then
      match jsonInt v with
      | .error e => .error e
      | .ok n => foldNelBody { acc with statusCode := n } rest
    else if k = ['e', 'l', 'a', 'p', 's', 'e', 'd', '-', 't', 'i', 'm', 'e'] then
      match jsonInt v with
      | .error e => .error e
      | .ok n => foldNelBody { acc with elapsedTime := n } rest
    else if k = ['p', 'h', 'a', 's', 'e'] then
      match jsonStr v with
      | .error e => .error e
      | .ok s0 => foldNelBody { acc with phase := s0 } rest
    else if k = ['t', 'y', 'p', 'e'] then
      match jsonStr v with
      | .error e => .error e
      | .ok s0 => foldNelBody { acc with typ := s0 } rest
    else foldNelBody acc rest

/-- Modelled from the spec: interpret a parsed report object
(`NelReport.UnmarshalJSON`).  If `type = "network-error"` the body is decoded
field by field into the typed NEL slots and `rawBody` stays empty; otherwise
the raw bytes of the body sub-object are captured into `rawBody` and the
typed fields stay zero-valued. -/
def reportFromEntries (entries : List RepEntry) : Except Chars NelReport :=
  match foldRepEntries {} entries with
  | .error e => .error e
  | .ok raw =>
    if raw.reportType = networkError then
      match raw.body with
      | none => .error ['m', 'i', 's', 's', 'i', 'n', 'g', ' ', 'b', 'o', 'd', 'y']
      | some (bodyV, _) =>
        match bodyV with
        | .obj bentries =>
          foldNelBody
            { age := raw.age, reportType := raw.reportType, url := raw.url } bentries
        | _ => .error ['b', 'a', 'd', ' ', 'b', 'o', 'd', 'y']
    else
      .ok { age := raw.age, reportType := raw.reportType, url := raw.url,
            rawBody := match raw.body with | some (_, braw) => braw | none => [] }

/-- Parse the entries of a nonempty report object, capturing the raw bytes of
each value. -/
def parseRepRest : Nat → Chars → Except Chars (List RepEntry × Chars)
  | 0, _ => .error ['m', 'a', 'x', ' ', 'd', 'e', 'p', 't', 'h']
  | fuel + 1, s =>
    match skipWs s with
    | '"' :: s1 =>
      match parseStrBody s1 with
      | .error e => .error e
      | .ok (k, s2) =>
        match skipWs s2 with
        | ':' :: s3 =>
          match parseJson fuel (skipWs s3) with
          | .error e => .error e
          | .ok (v, s4) =>
            match skipWs s4 with
            | ',' :: s5 =>
              match parseRepRest fuel s5 with
              | .error e => .error e
              | .ok (l, s6) =>
                .ok ((k, v, (skipWs s3).take ((skipWs s3).length - s4.length)) :: l, s6)
            | '}' :: s5 => .ok ([(k, v, (skipWs s3).take ((skipWs s3).length - s4.length))], s5)
            | _ => .error ['b', 'a', 'd', ' ', 'o', 'b', 'j', 'e', 'c', 't']
        | _ => .error ['b', 'a', 'd', ' ', 'o', 'b', 'j', 'e', 'c', 't']
    | _ => .error ['b', 'a', 'd', ' ', 'o', 'b', 'j', 'e', 'c', 't']

/-- Parse one report object. -/
def parseReport (fuel : Nat) (s : Chars) : Except Chars (NelReport × Chars) :=
  match skipWs s with
  | '{' :: s1 =>
    match skipWs s1 with
    | '}' :: s2 =>
      match reportFromEntries [] with
      | .error e => .error e
      | .ok r => .ok (r, s2)
    | s2 =>
      match parseRepRest fuel s2 with
      | .error e => .error e
      | .ok (entries, s3) =>
        match reportFromEntries entries with
        | .error e => .error e
        | .ok r => .ok (r, s3)
  | _ => .error ['e', 'x', 'p', 'e', 'c', 't', 'e', 'd', ' ', 'o', 'b', 'j', 'e', 'c', 't']

/-- Parse the elements of a nonempty report array, including the closing
bracket. -/
def parseRepList : Nat → Chars → Except Chars (List NelReport × Chars)
  | 0, _ => .error ['m', 'a', 'x', ' ', 'd', 'e', 'p', 't', 'h']
  | fuel + 1, s =>
    match parseReport fuel s with
    | .error e => .error e
    | .ok (r, s1) =>
      match skipWs s1 with
      | ',' :: s2 =>
        match parseRepList fuel s2 with
        | .error e => .error e
        | .ok (l, s3) => .ok (r :: l, s3)
      | ']' :: s2 => .ok ([r], s2)
      | _ => .error ['b', 'a', 'd', ' ', 'a', 'r', 'r', 'a', 'y']

/-- Parse a report upload: a top-level JSON array of report objects (a
non-array input is a decode failure, spec section 4.A). -/
def parseReportsArr (fuel : Nat) (s : Chars) : Except Chars (List NelReport × Chars) :=
  match skipWs s with
  | '[' :: s1 =>
    match skipWs s1 with
    | ']' :: s2 => .ok ([], s2)
    | s2 => parseRepList fuel s2
  | _ => .error ['n', 'o', 't', ' ', 'a', 'n', ' ', 'a', 'r', 'r', 'a', 'y']

/-- Modelled from the spec: `json.Unmarshal` of an upload payload into a list
of reports (the whole input must be consumed). -/
def unmarshalReports (s : Chars) : Except Chars (List NelReport) :=
  match parseReportsArr (jfuel s) s with
  | .error e => .error e
  | .ok (reports, rest) =>
    if skipWs rest = [] then .ok reports
    else .error ['t', 'r', 'a', 'i', 'l', 'i', 'n', 'g', ' ', 'd', 'a', 't', 'a']

/-! ### Spec-aware report emission (spec section 4.A) -/


/-- Modelled from the spec: re-synthesize the `body` object of a NEL report
from the typed fields, using the spec field names. -/
def marshalNelBody (r : NelReport) : Json :=
  .obj [(['r', 'e', 'f', 'e', 'r', 'r', 'e', 'r'], .str r.referrer),
        (['s', 'a', 'm', 'p', 'l', 'i', 'n', 'g', '-', 'f', 'r', 'a', 'c', 't', 'i', 'o', 'n'],
          numOfDec r.samplingFraction.1 r.samplingFraction.2),
        (['s', 'e', 'r', 'v', 'e', 'r', '-', 'i', 'p'], .str r.serverIP),
        (['p', 'r', 'o', 't', 'o', 'c', 'o', 'l'], .str r.protocol),
        (['m', 'e', 't', 'h', 'o', 'd'], .str r.method),
        (['s', 't', 'a', 't', 'u', 's', '-', 'c', 'o', 'd', 'e'], numOfInt r.statusCode),
        (['e', 'l', 'a', 'p', 's', 'e', 'd', '-', 't', 'i', 'm', 'e'], numOfInt r.elapsedTime),
        (['p', 'h', 'a', 's', 'e'], .str r.phase),
        (['t', 'y', 'p', 'e'], .str r.typ)]

/-- Modelled from the spec: `NelReport.MarshalJSON`.  For NEL reports the
body is re-synthesized from the typed fields; for non-NEL reports `rawBody`
is embedded verbatim. -/
def marshalReport (r : NelReport) : Chars :=
  if r.reportType = networkError then
    serialize (.obj [(['a', 'g', 'e'], numOfInt r.age),
                     (['t', 'y', 'p', 'e'], .str r.reportType),
                     (['u', 'r', 'l'], .str r.url),
                     (['b', 'o', 'd', 'y'], marshalNelBody r)])
  else
    '{' :: (serStr ['a', 'g', 'e'] ++ ':' :: serialize (numOfInt r.age)
      ++ ',' :: (serStr ['t', 'y', 'p', 'e'] ++ ':' :: serialize (.str r.reportType)
      ++ ',' :: (serStr ['u', 'r', 'l'] ++ ':' :: serialize (.str r.url)
      ++ ',' :: (serStr ['b', 'o', 'd', 'y'] ++ ':' :: (r.rawBody ++ ['}'])))))

/-- Whether the bytes hold exactly one complete JSON value (what the decoder
captures into `rawBody`: the parse succeeds and consumes everything). -/
def parsesFully (b : Chars) : Bool :=
  match parseJson (jfuel b) b with
  | .ok (_, rest) => rest.isEmpty
  | .error _ => false

/-- The representable reports of the data model (spec section 3 invariants):
a NEL report has an empty `rawBody` and no annotations survive the codec; a
non-NEL report has zero-valued typed fields and a `rawBody` holding the
bytes of one complete JSON value, starting at its first byte — exactly what
the decoder captures from a `body` sub-object, internal whitespace
included. -/
def ReportWF (r : NelReport) : Prop :=
  r.anns = []
  ∧ (if r.reportType = networkError then
      r.rawBody = []
    else
      r.referrer = [] ∧ r.samplingFraction = (0, 0) ∧ r.serverIP = []
        ∧ r.protocol = [] ∧ r.method = [] ∧ r.statusCode = 0 ∧ r.elapsedTime = 0
        ∧ r.phase = [] ∧ r.typ = []
        ∧ skipWs r.rawBody = r.rawBody ∧ parsesFully r.rawBody = true)

/-! ## Report batches

`ReportBatch` itself lives in the missing `report.go`; its fields are
modelled from the spec (section 3) and from the historical copies in
`src/unnamed`.  `Time` is kept as milliseconds since the Unix epoch. -/


/-- Modelled from the spec: one upload (spec section 3 `ReportBatch`). -/
structure ReportBatch where
  reports : List NelReport := []
  time : Int := 0
  collectorURL : Chars := []
  clientIP : Chars := []
  clientUserAgent : Chars := []
  anns : AnnMap := []
deriving DecidableEq, Inhabited

/-! ## Annotation store (`annotation.go`) -/


/-- Go `Annotations.GetAnnotation`: the annotation with the given name, if any
(`nil` in Go is modelled by `none`). -/
def getAnn : AnnMap → Chars → Option AnnVal
  | [], _ => none
  | (k, v) :: t, name => if k = name then some v else getAnn t name

/-- Go `Annotations.SetAnnotation`: add an annotation, overwriting any existing
annotation with the same name. -/
def setAnn : AnnMap → Chars → AnnVal → AnnMap
  | [], name, v => [(name, v)]
  | (k, w) :: t, name, v => if k = name then (k, v) :: t else (k, w) :: setAnn t name v

/-- Go `annotationWriter.Write`: append `p` to the named `[]byte` annotation.
Returns the Go `(int, error)` pair (the error modelled as `Option Chars`)
together with the store after the call. -/
def annWrite (m : AnnMap) (name : Chars) (p : Chars) : (Nat × Option Chars) × AnnMap :=
  match getAnn m name with
  | some (.strv _) =>
    ((0, some ("Annotation named ".toList ++ name ++ " already exists and is not a []byte".toList)), m)
  | some (.intv _) =>
    ((0, some ("Annotation named ".toList ++ name ++ " already exists and is not a []byte".toList)), m)
  | some (.bytes b) => ((p.length, none), setAnn m name (.bytes (b ++ p)))
  | none => ((p.length, none), setAnn m name (.bytes p))

/-! ## The raw test codec (`utils_test.go`)

`encodeRawReports`/`decodeRawReports` marshal the in-memory `NelReport`
verbatim through `encoding/json`, bypassing the spec-aware codec.
Annotation values are encoded as the tagged variants of spec section 9. -/


/-- Look up a key in a JSON object entry list (first match, as
`encoding/json` field matching). -/
def jlookup (k : Chars) : List (Chars × Json) → Option Json
  | [] => none
  | (k2, v) :: t => if k2 = k then some v else jlookup k t

/-- Modelled from the spec: raw encoding of a tagged annotation value. -/
def annValToJson : AnnVal → Json
  | .bytes b => .obj [("Bytes".toList, .str b)]
  | .strv s => .obj [("String".toList, .str s)]
  | .intv n => .obj [("Int".toList, numOfInt n)]

/-- Modelled from the spec: raw decoding of a tagged annotation value. -/
def annValOfJson : Json → Except Chars AnnVal
  | .obj [(k, v)] =>
    if k = "Bytes".toList then
      match v with
      | .str b => .ok (.bytes b)
      | _ => .error ("bad bytes annotation value".toList)
    else if k = "String".toList then
      match v with
      | .str s => .ok (.strv s)
      | _ => .error ("bad string annotation value".toList)
    else if k = "Int".toList then
      match jsonInt v with
      | .ok n => .ok (.intv n)
      | .error e => .error e
    else .error ("unknown annotation tag".toList)
  | _ => .error ("bad annotation value".toList)

/-- Raw encoding of an annotation store. -/
def annsToJson (m : AnnMap) : Json := .obj (m.map fun e => (e.1, annValToJson e.2))

/-- Raw decoding of an annotation store. -/
def annsOfJson : Json → Except Chars AnnMap
  | .obj l => annsEntriesOf l
  | _ => .error ("bad annotation store".toList)
where
  annsEntriesOf : List (Chars × Json) → Except Chars AnnMap
    | [] => .ok []
    | (k, v) :: t =>
      match annValOfJson v with
      | .error e => .error e
      | .ok a =>
        match annsEntriesOf t with
        | .error e => .error e
        | .ok m => .ok ((k, a) :: m)

/-- Go `encodeRawReports` on a single report: dump each Go field verbatim, in
struct order, as `encoding/json` does. -/
def rawEncodeReport (r : NelReport) : Json :=
  .obj [("Age".toList, numOfInt r.age),
        ("ReportType".toList, .str r.reportType),
        ("URL".toList, .str r.url),
        ("Referrer".toList, .str r.referrer),
        ("SamplingFraction".toList, numOfDec r.samplingFraction.1 r.samplingFraction.2),
        ("ServerIP".toList, .str r.serverIP),
        ("Protocol".toList, .str r.protocol),
        ("Method".toList, .str r.method),
        ("StatusCode".toList, numOfInt r.statusCode),
        ("ElapsedTime".toList, numOfInt r.elapsedTime),
        ("Phase".toList, .str r.phase),
        ("Type".toList, .str r.typ),
        ("RawBody".toList, .str r.rawBody),
        ("Annotations".toList, annsToJson r.anns)]

/-- Go `decodeRawReports` on a single report object: read each field by name,
leaving the Go zero value for a missing field. -/
def rawDecodeReport : Json → Except Chars NelReport
  | .obj l => do
    let age ← (jlookup "Age".toList l).elim (.ok 0) jsonInt
    let reportType ← (jlookup "ReportType".toList l).elim (.ok []) jsonStr
    let url ← (jlookup "URL".toList l).elim (.ok []) jsonStr
    let referrer ← (jlookup "Referrer".toList l).elim (.ok []) jsonStr
    let samplingFraction ← (jlookup "SamplingFraction".toList l).elim (.ok (0, 0)) jsonDec
    let serverIP ← (jlookup "ServerIP".toList l).elim (.ok []) jsonStr
    let protocol ← (jlookup "Protocol".toList l).elim (.ok []) jsonStr
    let method ← (jlookup "Method".toList l).elim (.ok []) jsonStr
    let statusCode ← (jlookup "StatusCode".toList l).elim (.ok 0) jsonInt
    let elapsedTime ← (jlookup "ElapsedTime".toList l).elim (.ok 0) jsonInt
    let phase ← (jlookup "Phase".toList l).elim (.ok []) jsonStr
    let typ ← (jlookup "Type".toList l).elim (.ok []) jsonStr
    let rawBody ← (jlookup "RawBody".toList l).elim (.ok []) jsonStr
    let anns ← (jlookup "Annotations".toList l).elim (.ok []) annsOfJson
    .ok { age, reportType, url, referrer, samplingFraction, serverIP, protocol,
          method, statusCode, elapsedTime, phase, typ, rawBody, anns }
  | _ => .error ("report is not an object".toList)

/-- Go `encodeRawReports`: the raw encoding of a report list is a JSON array of
raw report objects. -/
def encodeRawReports (rs : List NelReport) : Json := .arr (rs.map rawEncodeReport)

/-- Go `decodeRawReports`: decode a JSON array of raw report objects. -/
def decodeRawReports : Json → Except Chars (List NelReport)
  | .arr l => decodeRawList l
  | _ => .error ("reports are not an array".toList)
where
  decodeRawList : List Json → Except Chars (List NelReport)
    | [] => .ok []
    | v :: t =>
      match rawDecodeReport v with
      | .error e => .error e
      | .ok r =>
        match decodeRawList t with
        | .error e => .error e
        | .ok rs => .ok (r :: rs)

/-- Go `encodeRawBatch`: the raw encoding of a whole batch, reports included. -/
def rawEncodeBatch (b : ReportBatch) : Json :=
  .obj [("Time".toList, numOfInt b.time),
        ("CollectorURL".toList, .str b.collectorURL),
        ("ClientIP".toList, .str b.clientIP),
        ("ClientUserAgent".toList, .str b.clientUserAgent),
        ("Annotations".toList, annsToJson b.anns),
        ("Reports".toList, encodeRawReports b.reports)]

/-- The inverse of `rawEncodeBatch`. -/
def rawDecodeBatch : Json → Except Chars ReportBatch
  | .obj l => do
    let time ← (jlookup "Time".toList l).elim (.ok 0) jsonInt
    let collectorURL ← (jlookup "CollectorURL".toList l).elim (.ok []) jsonStr
    let clientIP ← (jlookup "ClientIP".toList l).elim (.ok []) jsonStr
    let clientUserAgent ← (jlookup "ClientUserAgent".toList l).elim (.ok []) jsonStr
    let anns ← (jlookup "Annotations".toList l).elim (.ok []) annsOfJson
    let reports ← (jlookup "Reports".toList l).elim (.ok []) decodeRawReports
    .ok { reports, time, collectorURL, clientIP, clientUserAgent, anns }
  | _ => .error ("batch is not an object".toList)

/-! ## The NEL filter (`KeepNelReports` in `pkg/core`) -/


/-- Go `KeepNelReports.ProcessReports`: keep only the reports whose
`ReportType` is `"network-error"`, preserving order. -/
def keepNelReports (b : ReportBatch) : ReportBatch :=
  { b with reports := b.reports.filter (fun r => decide (r.reportType = networkError)) }

/-! ## The CLF dumper (`ReportDumper.ProcessReports`, src/unnamed/part_010)

Times are formatted in UTC with the Go layout
`02/Jan/2006:15:04:05.000 -0700`; the calendar conversion uses the standard
civil-from-days algorithm. -/


/-- Convert a day count since the Unix epoch to a `(year, month, day)`
civil date (proleptic Gregorian). -/
def civilFromDays (z0 : Int) : Int × Nat × Nat :=
  let z := z0 + 719468
  let era := (if 0 ≤ z then z else z - 146096) / 146097
  let doe := (z - era * 146097).toNat
  let yoe := (doe - doe / 1460 + doe / 36524 - doe / 146096) / 365
  let y := (yoe : Int) + era * 400
  let doy := doe - (365 * yoe + yoe / 4 - yoe / 100)
  let mp := (5 * doy + 2) / 153
  let d := doy - (153 * mp + 2) / 5 + 1
  let m := if mp < 10 then mp + 3 else mp - 9
  ((if m ≤ 2 then y + 1 else y), m, d)

/-- Three-letter English month abbreviation, as in Go's reference layout. -/
def monthAbbrev : Nat → Chars
  | 1 => "Jan".toList
  | 2 => "Feb".toList
  | 3 => "Mar".toList
  | 4 => "Apr".toList
  | 5 => "May".toList
  | 6 => "Jun".toList
  | 7 => "Jul".toList
  | 8 => "Aug".toList
  | 9 => "Sep".toList
  | 10 => "Oct".toList
  | 11 => "Nov".toList
  | _ => "Dec".toList

/-- Go `batch.Time.UTC().Format("02/Jan/2006:15:04:05.000 -0700")` for a time
given in milliseconds since the Unix epoch. -/
def clfTimeStr (t : Int) : Chars :=
  let ms := (t % 1000).toNat
  let secs := (t - t % 1000) / 1000
  let days := (secs - secs % 86400) / 86400
  let sod := (secs % 86400).toNat
  let ymd := civilFromDays days
  natDigitsPad 2 ymd.2.2 ++ '/' :: (monthAbbrev ymd.2.1 ++ '/' :: (natDigitsPad 4 ymd.1.toNat
    ++ ':' :: (natDigitsPad 2 (sod / 3600) ++ ':' :: (natDigitsPad 2 (sod % 3600 / 60)
    ++ ':' :: (natDigitsPad 2 (sod % 60) ++ '.' :: (natDigitsPad 3 ms ++ " +0000".toList))))))

/-- Go `strconv.Itoa` on a (model) integer. -/
def itoa (n : Int) : Chars :=
  if n < 0 then '-' :: natDigits n.natAbs else natDigits n.natAbs

/-- The `<result>` column of a CLF line for a NEL report: the numeric status
code for `Type` `ok` / `http.error`, else the `Type` string. -/
def clfResult (r : NelReport) : Chars :=
  if r.typ = "ok".toList ∨ r.typ = "http.error".toList then itoa r.statusCode
  else r.typ

/-- One CLF line, newline included (`ReportDumper.ProcessReports` loop
body). -/
def clfLine (clientIP tstr : Chars) (r : NelReport) : Chars :=
  if r.reportType = networkError then
    clientIP ++ " - - [".toList ++ tstr ++ "] \"GET ".toList ++ r.url
      ++ "\" ".toList ++ clfResult r ++ " -\n".toList
  else
    clientIP ++ " - - [".toList ++ tstr ++ "] \"GET ".toList ++ r.url
      ++ "\" <".toList ++ r.reportType ++ "> -\n".toList

/-- Go `ReportDumper.ProcessReports`: write one CLF line per report of the
batch; the result is everything written. -/
def dumpReportsAsCLF (b : ReportBatch) : Chars :=
  b.reports.foldl (fun acc r => acc ++ clfLine b.clientIP (clfTimeStr b.time) r) []

/-! ## Ingress (`Pipeline.ProcessReports`, pipeline.go)

`net.SplitHostPort` and `NewReportBatch` live outside the given sources
(`net` is the Go standard library; `report.go` is missing), and are modelled
from their documented behavior and the spec's ingress steps. -/


/-- An HTTP request, restricted to what ingress reads. -/
structure HttpRequest where
  method : Chars := []
  contentType : Chars := []
  remoteAddr : Chars := []
  urlStr : Chars := []
  userAgent : Chars := []
  body : Chars := []
deriving DecidableEq, Inhabited

/-- A written HTTP response: `http.Error(w, body, status)`. -/
structure HttpResponse where
  status : Nat := 200
  body : Chars := []
deriving DecidableEq, Inhabited

/-- Go `net.SplitHostPort`: split `host:port` or `[host]:port` into host and
port, preserving bracketed IPv6 literals. -/
def splitHostPort (s : Chars) : Except Chars (Chars × Chars) :=
  match s with
  | '[' :: t =>
    match t.dropWhile (fun c => !(c = ']')) with
    | ']' :: ':' :: port =>
      if port.contains ':' then .error ("too many colons in address".toList)
      else .ok (t.takeWhile (fun c => !(c = ']')), port)
    | _ => .error ("missing port in address".toList)
  | _ =>
    let rev := s.reverse
    let portRev := rev.takeWhile (fun c => !(c = ':'))
    if portRev.length = s.length then .error ("missing port in address".toList)
    else
      let host := (rev.drop (portRev.length + 1)).reverse
      if host.contains ':' then .error ("too many colons in address".toList)
      else if host.contains '[' ∨ host.contains ']' then
        .error ("unexpected square bracket in address".toList)
      else .ok (host, portRev.reverse)

/-- Modelled from the spec: `NewReportBatch` (ingress steps 3-5): parse the
client host from the remote address, stamp the batch from the clock and the
request, decode the JSON array of reports. -/
def newReportBatch (r : HttpRequest) (now : Int) : Except Chars ReportBatch :=
  match splitHostPort r.remoteAddr with
  | .error e => .error e
  | .ok (host, _) =>
    match unmarshalReports r.body with
    | .error e => .error e
    | .ok reports =>
      .ok { reports, time := now, collectorURL := r.urlStr, clientIP := host,
            clientUserAgent := r.userAgent, anns := [] }

/-- The value `Pipeline.ProcessReports` returns: an error for a rejected
request, `ErrDropped` for a full queue, `nil` for an enqueued batch. -/
inductive ProcessOutcome where
  | httpError (e : Chars)
  | dropped
  | enqueued
deriving DecidableEq

/-- Go `Pipeline.ProcessReports`: validate the request, build the batch, write
the response, and attempt a non-blocking enqueue onto the bounded queue. -/
def processReports (cap : Nat) (queue : List ReportBatch) (r : HttpRequest) (now : Int) :
    HttpResponse × List ReportBatch × ProcessOutcome :=
  if ¬ r.method = "POST".toList then
    (⟨405, "Must use POST to upload reports".toList⟩, queue,
     .httpError ("Must use POST to upload reports".toList))
  else if ¬ r.contentType = "application/reports+json".toList then
    (⟨400, "Must use application/reports+json to upload reports".toList⟩, queue,
     .httpError ("Must use application/reports+json to upload reports".toList))
  else
    match newReportBatch r now with
    | .error e => (⟨400, e⟩, queue, .httpError e)
    | .ok batch =>
      if queue.length < cap then (⟨204, []⟩, queue ++ [batch], .enqueued)
      else (⟨204, []⟩, queue, .dropped)

/-! ## CORS (`cors.go` and `serveCORS` in `pipeline.go`) -/


/-- Go `Header().Set`: replace the value of a header, or add it. -/
def setHeader : List (Chars × Chars) → Chars → Chars → List (Chars × Chars)
  | [], k, v => [(k, v)]
  | (k2, v2) :: t, k, v => if k2 = k then (k2, v) :: t else (k2, v2) :: setHeader t k v

/-- Go `Header().Get`: the value of a header, if present. -/
def getHeader : List (Chars × Chars) → Chars → Option Chars
  | [], _ => none
  | (k2, v2) :: t, k => if k2 = k then some v2 else getHeader t k

/-- A response as the CORS layer produces it: status, headers, body. -/
structure HttpResponseH where
  status : Nat := 200
  headers : List (Chars × Chars) := []
  body : Chars := []
deriving DecidableEq, Inhabited

/-- Go `CORS.ServeHTTP`: a fixed header set for OPTIONS requests (note the
singular `Access-Control-Allow-Method`); all other requests go to the
wrapped handler. -/
def corsServeHTTP (inner : HttpRequest → HttpResponseH) (r : HttpRequest) : HttpResponseH :=
  if r.method = "OPTIONS".toList then
    { status := 200,
      headers :=
        setHeader
          (setHeader
            (setHeader [] ("Access-Control-Allow-Method".toList) ("POST".toList))
            ("Access-Control-Allow-Headers".toList) ("Content-Type".toList))
          ("Access-Control-Allow-Origin".toList) ("*".toList),
      body := [] }
  else inner r

/-- Go `serveCORS` (pipeline.go): set the three CORS headers (plural
`Access-Control-Allow-Methods`) on the response writer. -/
def serveCORS (hs : List (Chars × Chars)) : List (Chars × Chars) :=
  setHeader
    (setHeader
      (setHeader hs ("Access-Control-Allow-Methods".toList) ("POST".toList))
      ("Access-Control-Allow-Headers".toList) ("Content-Type".toList))
    ("Access-Control-Allow-Origin".toList) ("*".toList)

/-! ## The configuration loader (`Pipeline.LoadFromConfig`, annotation.go)

The TOML layer (`BurntSushi/toml`) is external; its behavior on the shapes
the loader distinguishes is modelled by `ConfigDoc`.  A `[[processor]]`
entry is either a TOML table or some other value; BurntSushi rejects
mixed-type arrays at parse time, so an array reaching the loader is
homogeneous. -/


/-- One entry of the `processor` array as the TOML layer hands it over:
a table (with the string `type` field, `[]` when missing) or a non-table
value. -/
inductive TomlEntry where
  | notTable
  | table (typ : Chars)
deriving DecidableEq

/-- The parse-relevant shape of a configuration document. -/
inductive ConfigDoc where
  | unparseable
  | noProcField
  | procs (entries : List TomlEntry)
deriving DecidableEq

/-- Whether an entry list mixes tables and non-tables. -/
def mixedEntries (l : List TomlEntry) : Bool :=
  l.any (fun e => e = .notTable) && l.any (fun e => ¬ e = .notTable)

/-- Go `toml.Unmarshal` into `struct { Processors []toml.Primitive }`: an
unparseable document (including a mixed-type array) fails; a document
without a `processor` field leaves the slice nil (`none`). -/
def tomlUnmarshalCfg : ConfigDoc → Except Unit (Option (List TomlEntry))
  | .unparseable => .error ()
  | .noProcField => .ok none
  | .procs l => if mixedEntries l then .error () else .ok (some l)

/-- A processor registry: `reportLoaders`, mapping a type name to a factory
whose result is a processor (a numeric id in the model) or an error. -/
abbrev LoaderReg := List (Chars × Except Chars Nat)

/-- Registry lookup (`reportLoaders[processorConfig.Type]`). -/
def lookupReg : LoaderReg → Chars → Option (Except Chars Nat)
  | [], _ => none
  | (k, f) :: t, name => if k = name then some f else lookupReg t name

/-- The loader's `for idx, processorPrimitive := range config.Processors`
loop; `procs` is the pipeline's processor list, appended to by
`AddProcessor` as the loop goes. -/
def loadLoop (reg : LoaderReg) (procs : List Nat) (idx : Nat) :
    List TomlEntry → Except Chars Unit × List Nat
  | [] => (.ok (), procs)
  | .notTable :: _ => (.error ("Processor config 0 must be an object".toList), procs)
  | .table typ :: rest =>
    if typ = [] then
      (.error ("Processor config ".toList ++ natDigits idx ++ " is missing `type`".toList), procs)
    else
      match lookupReg reg typ with
      | none =>
        (.error ("Unknown processor type ".toList ++ typ
          ++ " for processor ".toList ++ natDigits idx), procs)
      | some (.error e) =>
        (.error ("Couldn't create a ".toList ++ typ ++ " for processor ".toList
          ++ natDigits idx ++ ": ".toList ++ e), procs)
      | some (.ok p) => loadLoop reg (procs ++ [p]) (idx + 1) rest

/-- Go `Pipeline.LoadFromConfig`: unmarshal the document, check the
`processor` array, then load each entry in order, adding each created
processor to the pipeline as soon as its factory succeeds.  Returns the
loader's result together with the pipeline's processor list after the
call. -/
def loadFromConfig (reg : LoaderReg) (procs : List Nat) (doc : ConfigDoc) :
    Except Chars Unit × List Nat :=
  match tomlUnmarshalCfg doc with
  | .error _ => (.error ("Invalid NEL configuration".toList), procs)
  | .ok none => (.error ("NEL configuration missing `processors`".toList), procs)
  | .ok (some []) =>
    (.error ("NEL configuration `processors` array must be non-empty".toList), procs)
  | .ok (some (e :: rest)) => loadLoop reg procs 0 (e :: rest)

/-- The processors contributed by the longest prefix of entries whose
factories all succeed. -/
def goodPrefixProcs (reg : LoaderReg) : List TomlEntry → List Nat
  | [] => []
  | .notTable :: _ => []
  | .table typ :: rest =>
    if typ = [] then []
    else
      match lookupReg reg typ with
      | some (.ok p) => p :: goodPrefixProcs reg rest
      | _ => []

/-! ## Hot swap (`hotswap.go`)

`HotSwap` is modelled as a small-step interleaving machine.  Handlers are
numeric ids; each concurrent request acquires the read lock, dispatches to
the handler installed at that moment, and releases; `Swap` takes the write
lock, closes the outgoing handler, installs the new one, and unlocks.  The
lock guards mirror `sync.RWMutex`: readers are excluded while the writer
holds the lock, and the writer needs all readers gone. -/


/-- The lifecycle of one request through `HotSwap.ServeHTTP`. -/
inductive ReqPhase where
  | start
  | reading (h : Nat)
  | done (h : Nat)
deriving DecidableEq

/-- The program counter of the single `Swap(new)` call. -/
inductive SwapPc where
  | idle
  | locked
  | closedStep
  | installed
  | finished
deriving DecidableEq

/-- The shared state: the installed handler, the lock, the requests, the
swap progress, and whether the outgoing handler's `Close` ran. -/
structure HSState where
  hc : Option Nat
  readers : Nat
  writerHeld : Bool
  reqs : List ReqPhase
  swapPc : SwapPc
  closedOld : Bool
deriving DecidableEq

/-- One scheduler choice. -/
inductive HSAct where
  | reqAcquire (i : Nat)
  | reqRelease (i : Nat)
  | swapLock
  | swapClose
  | swapInstall
  | swapUnlock
deriving DecidableEq

/-- The guarded transition relation of the machine, as a partial function:
`none` when the chosen action is not enabled. -/
def hsStep (new : Nat) (s : HSState) : HSAct → Option HSState
  | .reqAcquire i =>
    match s.reqs[i]?, s.writerHeld, s.hc with
    | some .start, false, some h =>
      some { s with reqs := s.reqs.set i (.reading h), readers := s.readers + 1 }
    | _, _, _ => none
  | .reqRelease i =>
    match s.reqs[i]? with
    | some (.reading h) =>
      some { s with reqs := s.reqs.set i (.done h), readers := s.readers - 1 }
    | _ => none
  | .swapLock =>
    match s.swapPc, s.readers, s.writerHeld with
    | .idle, 0, false => some { s with swapPc := .locked, writerHeld := true }
    | _, _, _ => none
  | .swapClose =>
    match s.swapPc with
    | .locked => some { s with swapPc := .closedStep, closedOld := s.hc.isSome }
    | _ => none
  | .swapInstall =>
    match s.swapPc with
    | .closedStep => some { s with swapPc := .installed, hc := some new }
    | _ => none
  | .swapUnlock =>
    match s.swapPc with
    | .installed => some { s with swapPc := .finished, writerHeld := false }
    | _ => none

/-- Run a schedule: each action must be enabled when its turn comes. -/
def hsRun (new : Nat) : HSState → List HSAct → Option HSState
  | s, [] => some s
  | s, a :: tr =>
    match hsStep new s a with
    | none => none
    | some s2 => hsRun new s2 tr

/-- The initial state: handler `old` installed, `n` requests waiting, the
swap not yet started. -/
def hsInit (old : Nat) (n : Nat) : HSState :=
  { hc := some old, readers := 0, writerHeld := false,
    reqs := List.replicate n .start, swapPc := .idle, closedOld := false }

/-- The handler a request was dispatched to, if it has been. -/
def dispatchedTo : ReqPhase → Option Nat
  | .start => none
  | .reading h => some h
  | .done h => some h

/-- How many of the requests have been dispatched to handler `h`. -/
def countDispTo (h : Nat) (reqs : List ReqPhase) : Nat :=
  (reqs.filter (fun p => dispatchedTo p = some h)).length

/-- How many of the requests have been dispatched at all. -/
def countDisp (reqs : List ReqPhase) : Nat :=
  (reqs.filter (fun p => ¬ dispatchedTo p = none)).length

/-- The machine's inductive invariant: before the install step the old
handler is the one installed; from the install step on the new one is, and
the outgoing handler was closed first; and every dispatch went to the old
or the new handler. -/
def HSInv (old new : Nat) (s : HSState) : Prop :=
  ((s.swapPc = .idle ∨ s.swapPc = .locked ∨ s.swapPc = .closedStep) → s.hc = some old)
  ∧ ((s.swapPc = .installed ∨ s.swapPc = .finished) → s.hc = some new ∧ s.closedOld = true)
  ∧ (s.swapPc = .closedStep → s.closedOld = true)
  ∧ (∀ p ∈ s.reqs, ∀ h, dispatchedTo p = some h → h = old ∨ h = new)

/-! ## Concrete fixtures

Test vectors from `report_test.go`, the spec's concrete scenarios, and
small concrete states used to instantiate the general theorems. -/


/-- The valid-NEL upload payload of `TestNelReport` (exact bytes). -/
def nelTestVector : Chars := ("[\n\t\t\t  \x7b\n\t\t\t    \"age\": 500,\n\t\t\t    \"type\": \"network-error\",\n\t\t\t    \"url\": \"https://example.com/about/\",\n\t\t\t    \"body\": \x7b\n\t\t\t      \"uri\": \"https://example.com/about/\",\n\t\t\t      \"referrer\": \"https://example.com/\",\n\t\t\t      \"sampling-fraction\": 0.5,\n\t\t\t      \"server-ip\": \"203.0.113.75\",\n\t\t\t      \"protocol\": \"h2\",\n\t\t\t      \"status-code\": 200,\n\t\t\t      \"elapsed-time\": 45,\n\t\t\t      \"type\": \"ok\"\n\t\t\t    \x7d\n\t\t\t  \x7d\n\t\t\t]").toList

/-- The non-NEL upload payload of `TestNelReport` (exact bytes). -/
def otherTestVector : Chars := ("[\n\t\t\t  \x7b\n\t\t\t    \"age\": 500,\n\t\t\t    \"type\": \"another-error\",\n\t\t\t    \"url\": \"https://example.com/about/\",\n\t\t\t    \"body\": \x7b\"random\": \"stuff\", \"ignore\": 100\x7d\n\t\t\t  \x7d\n\t\t\t]").toList

/-- The expected decoding of the valid-NEL payload. -/
def nelTestReport : NelReport :=
  { age := 500
    reportType := "network-error".toList
    url := "https://example.com/about/".toList
    referrer := "https://example.com/".toList
    samplingFraction := (5, 1)
    serverIP := "203.0.113.75".toList
    protocol := "h2".toList
    statusCode := 200
    elapsedTime := 45
    typ := "ok".toList }

/-- The expected decoding of the non-NEL payload: typed fields zero, the
body bytes preserved verbatim. -/
def otherTestReport : NelReport :=
  { age := 500
    reportType := "another-error".toList
    url := "https://example.com/about/".toList
    rawBody := ("\x7b\"random\": \"stuff\", \"ignore\": 100\x7d").toList }

/-- A single non-NEL report object whose raw body bytes contain spacing the
spec-aware emitter would not produce. -/
def wRepObj : Chars :=
  ("\x7b\"age\": 500, \"type\": \"another-error\", \"url\": \"u\", \"body\": \x7b\"x\": 1\x7d\x7d").toList

/-- The decoding of `wRepObj`. -/
def wRep : NelReport :=
  { age := 500
    reportType := "another-error".toList
    url := "u".toList
    rawBody := ("\x7b\"x\": 1\x7d").toList }

/-- A report violating the data-model invariants: a non-NEL report carrying
a nonzero typed field. -/
def badRep : NelReport :=
  { reportType := "a".toList
    statusCode := 200
    rawBody := "\x7b\x7d".toList }

/-- A report object with no `body` key. -/
def noBodySrc : Chars := ("\x7b\"type\": \"a\"\x7d").toList

/-- The decoding of `noBodySrc`: a non-NEL report with empty `rawBody`. -/
def noBodyRep : NelReport := { reportType := "a".toList }

/-- A well-formed NEL report. -/
def wfRep : NelReport :=
  { age := 3
    reportType := networkError
    url := "u".toList
    statusCode := 7
    typ := "ok".toList }

/-- The spec's CLF scenario report (simulated clock at the epoch). -/
def epochRep : NelReport :=
  { reportType := "network-error".toList
    url := "https://example.com/about/".toList
    statusCode := 200
    typ := "ok".toList }

/-- The spec's CLF scenario batch. -/
def epochBatch : ReportBatch :=
  { reports := [epochRep]
    time := 0
    clientIP := "192.0.2.1".toList }

/-- A valid upload request (remote address has a port). -/
def reqOK : HttpRequest :=
  { method := "POST".toList
    contentType := "application/reports+json".toList
    remoteAddr := "192.0.2.1:5555".toList
    body := "[]".toList }

/-- A request that passes the method and content-type checks and carries a
decodable body, but whose remote address has no port. -/
def reqNoPort : HttpRequest :=
  { method := "POST".toList
    contentType := "application/reports+json".toList
    remoteAddr := "192.0.2.1".toList
    body := "[]".toList }

/-- The batch ingress builds from `reqOK` at time 0. -/
def okBatch : ReportBatch :=
  { reports := []
    time := 0
    collectorURL := []
    clientIP := "192.0.2.1".toList
    clientUserAgent := []
    anns := [] }

/-- A one-entry registry whose factory succeeds. -/
def regK : LoaderReg := [("K".toList, .ok 7)]

/-- An OPTIONS request. -/
def optionsReq : HttpRequest := { method := "OPTIONS".toList }

/-- A wrapped handler used to exercise the CORS pass-through. -/
def wInner : HttpRequest → HttpResponseH := fun _ => { status := 500 }

/-- A store whose annotation `x` is not a byte slice. -/
def wAnnStore : AnnMap := [("x".toList, .intv 3)]

/-- A full schedule: one request before the swap, one after. -/
def wTrace : List HSAct :=
  [.reqAcquire 0, .reqRelease 0, .swapLock, .swapClose, .swapInstall, .swapUnlock,
   .reqAcquire 1, .reqRelease 1]

/-- The final state of `wTrace` from `hsInit 1 2`. -/
def wFinal : HSState :=
  { hc := some 2
    readers := 0
    writerHeld := false
    reqs := [.done 1, .done 2]
    swapPc := .finished
    closedOld := true }

/-- A mid-flight state: request 0 holds the read lock on handler 1. -/
def wMid : HSState :=
  { hc := some 1
    readers := 1
    writerHeld := false
    reqs := [.reading 1, .start]
    swapPc := .idle
    closedOld := false }

/-- The state after request 0 releases from `wMid`. -/
def wMid2 : HSState :=
  { hc := some 1
    readers := 0
    writerHeld := false
    reqs := [.done 1, .start]
    swapPc := .idle
    closedOld := false }

/-! ## Theorems -/

theorem natDigitsAux_eq :
    ∀ (fuel n : Nat), n ≤ fuel →
      natDigitsAux fuel n = ((Nat.digits 10 n).map digitCh).reverse := by
  intro fuel
  induction fuel with
  | zero =>
    intro n hn
    have h0 : n = 0 := Nat.le_zero.mp hn
    subst h0
    simp [natDigitsAux]
  | succ fuel ih =>
    intro n hn
    cases n with
    | zero => simp [natDigitsAux]
    | succ m =>
      rw [natDigitsAux]
      have hdiv : (m + 1) / 10 ≤ fuel := by
        have h1 : (m + 1) / 10 < m + 1 := Nat.div_lt_self (Nat.succ_pos m) (by norm_num)
        omega
      rw [ih ((m + 1) / 10) hdiv]
      rw [Nat.digits_def' (by norm_num : 1 < 10) (Nat.succ_pos m)]
      simp

theorem natDigits_eq (n : Nat) :
    natDigits n = if n = 0 then ['0'] else ((Nat.digits 10 n).map digitCh).reverse := by
  unfold natDigits
  split
  · rfl
  · exact natDigitsAux_eq n n (Nat.le_refl n)

theorem chVal_digitCh {d : Nat} (hd : d < 10) : chVal (digitCh d) = d := by
  interval_cases d <;> decide

theorem isDigitCh_digitCh {d : Nat} (hd : d < 10) : isDigitCh (digitCh d) = true := by
  interval_cases d <;> decide

theorem foldl_digits_reverse (ds : List Nat) (a : Nat) (h : ∀ d ∈ ds, d < 10) :
    List.foldl (fun a c => a * 10 + chVal c) a (ds.map digitCh).reverse
      = a * 10 ^ ds.length + Nat.ofDigits 10 ds := by
  induction ds generalizing a with
  | nil => simp
  | cons d ds ih =>
    have hd : d < 10 := h d (by simp)
    simp only [List.map_cons, List.reverse_cons, List.foldl_append, List.foldl_cons,
      List.foldl_nil, List.length_cons, Nat.ofDigits_cons]
    rw [ih a (fun x hx => h x (by simp [hx]))]
    rw [chVal_digitCh hd]
    ring

theorem digitsVal_natDigits (n : Nat) : digitsVal (natDigits n) = n := by
  by_cases h : n = 0
  · subst h; decide
  · rw [natDigits_eq]
    unfold digitsVal
    rw [if_neg h]
    rw [foldl_digits_reverse _ 0 (fun d hd => Nat.digits_lt_base (by norm_num) hd)]
    simp [Nat.ofDigits_digits]

theorem natDigits_ne_nil (n : Nat) : natDigits n ≠ [] := by
  rw [natDigits_eq]
  by_cases h : n = 0
  · simp [h]
  · simp only [if_neg h]
    intro hc
    have := congrArg List.length hc
    simp at this
    exact h (Nat.digits_eq_nil_iff_eq_zero.mp this)

theorem natDigits_all_digits (n : Nat) : ∀ c ∈ natDigits n, isDigitCh c = true := by
  intro c hc
  rw [natDigits_eq] at hc
  by_cases h : n = 0
  · simp [h] at hc; subst hc; decide
  · simp only [if_neg h, List.mem_reverse, List.mem_map] at hc
    obtain ⟨d, hd, rfl⟩ := hc
    exact isDigitCh_digitCh (Nat.digits_lt_base (by norm_num) hd)

theorem digitsVal_replicate_zero (k : Nat) (l : Chars) :
    digitsVal (List.replicate k '0' ++ l) = digitsVal l := by
  induction k with
  | zero => simp
  | succ k ih =>
    simpa [List.replicate_succ, digitsVal] using ih

theorem digitsVal_natDigitsPad (e n : Nat) : digitsVal (natDigitsPad e n) = n := by
  unfold natDigitsPad
  rw [digitsVal_replicate_zero, digitsVal_natDigits]

theorem natDigits_length_le {e n : Nat} (he : 1 ≤ e) (h : n < 10 ^ e) :
    (natDigits n).length ≤ e := by
  rw [natDigits_eq]
  by_cases h0 : n = 0
  · simpa [h0] using he
  · simp only [if_neg h0, List.length_reverse, List.length_map]
    rw [Nat.digits_len 10 n (by norm_num) h0]
    have := (Nat.lt_pow_iff_log_lt (by norm_num : 1 < 10) h0).mp h
    omega

theorem natDigitsPad_length {e n : Nat} (he : 1 ≤ e) (h : n < 10 ^ e) :
    (natDigitsPad e n).length = e := by
  unfold natDigitsPad
  have hle := natDigits_length_le he h
  simp [List.length_replicate]
  omega

theorem natDigitsPad_ne_nil (e n : Nat) : natDigitsPad e n ≠ [] := by
  unfold natDigitsPad
  intro h
  rcases List.append_eq_nil.mp h with ⟨_, h2⟩
  exact natDigits_ne_nil n h2

theorem natDigitsPad_all_digits (e n : Nat) :
    ∀ c ∈ natDigitsPad e n, isDigitCh c = true := by
  intro c hc
  unfold natDigitsPad at hc
  rcases List.mem_append.mp hc with h | h
  · rw [List.eq_of_mem_replicate h]; decide
  · exact natDigits_all_digits n c h

/-! ### The unconsumed rest is a suffix of the input -/


theorem skipWs_suffix (s : Chars) : skipWs s <:+ s := by
  induction s with
  | nil => simp [skipWs]
  | cons c rest ih =>
    by_cases h : isWs c
    · simp only [skipWs, if_pos h]
      exact ih.trans (List.suffix_cons c rest)
    · simp [skipWs, h]

theorem stripLit_suffix :
    ∀ (l s r : Chars), stripLit l s = some r → r <:+ s := by
  intro l
  induction l with
  | nil =>
    intro s r h
    simp only [stripLit, Option.some.injEq] at h
    subst h
    exact List.suffix_rfl
  | cons c l ih =>
    intro s r h
    match s with
    | [] => simp [stripLit] at h
    | d :: s =>
      simp only [stripLit] at h
      split at h
      · exact (ih s r h).trans (List.suffix_cons d s)
      · simp at h

theorem parseStrBody_suffix_aux :
    ∀ (n : Nat) (s : Chars), s.length ≤ n →
      ∀ (v r : Chars), parseStrBody s = .ok (v, r) → r <:+ s := by
  intro n
  induction n with
  | zero =>
    intro s hs v r h
    have hnil : s = [] := List.length_eq_zero.mp (Nat.le_zero.mp hs)
    subst hnil
    simp [parseStrBody] at h
  | succ n ih =>
    intro s hs v r h
    cases s with
    | nil => simp [parseStrBody] at h
    | cons c rest =>
      simp only [List.length_cons, Nat.succ_le_succ_iff] at hs
      rw [parseStrBody.eq_def] at h
      dsimp only at h
      split at h
      · simp only [Except.ok.injEq, Prod.mk.injEq] at h
        obtain ⟨-, rfl⟩ := h
        exact List.suffix_cons c rest
      · split at h
        · split at h
          · simp at h
          · rename_i d rest2
            split at h
            · simp at h
            · rename_i s2 r2 heq
              simp only [Except.ok.injEq, Prod.mk.injEq] at h
              obtain ⟨-, rfl⟩ := h
              have hlen : rest2.length ≤ n := by
                simp only [List.length_cons] at hs
                omega
              exact ((ih rest2 hlen s2 r2 heq).trans (List.suffix_cons d rest2)).trans
                (List.suffix_cons c (d :: rest2))
        · split at h
          · simp at h
          · rename_i s2 r2 heq
            simp only [Except.ok.injEq, Prod.mk.injEq] at h
            obtain ⟨-, rfl⟩ := h
            exact (ih rest hs s2 r2 heq).trans (List.suffix_cons c rest)

theorem parseStrBody_suffix (s v r : Chars) (h : parseStrBody s = .ok (v, r)) :
    r <:+ s :=
  parseStrBody_suffix_aux s.length s (Nat.le_refl _) v r h

theorem takeDigits_append (s : Chars) : (takeDigits s).1 ++ (takeDigits s).2 = s := by
  induction s with
  | nil => simp [takeDigits]
  | cons c rest ih =>
    by_cases h : isDigitCh c
    · simp [takeDigits, h, ih]
    · simp [takeDigits, h]

theorem takeDigits_suffix (s : Chars) : (takeDigits s).2 <:+ s :=
  ⟨(takeDigits s).1, takeDigits_append s⟩

theorem numSign_suffix (s : Chars) : (numSign s).2 <:+ s := by
  unfold numSign
  split
  · exact List.suffix_cons _ _
  · exact List.suffix_rfl

theorem parseNum_suffix (s : Chars) (v : Json) (r : Chars)
    (h : parseNum s = .ok (v, r)) : r <:+ s := by
  unfold parseNum at h
  split at h
  · simp at h
  · split at h
    · rename_i s3 heq
      split at h
      · simp at h
      · simp only [Except.ok.injEq, Prod.mk.injEq] at h
        obtain ⟨-, rfl⟩ := h
        have h1 : (takeDigits s3).2 <:+ s3 := takeDigits_suffix s3
        have h2 : ('.' :: s3) <:+ (numSign s).2 := heq ▸ takeDigits_suffix _
        exact ((h1.trans (List.suffix_cons '.' s3)).trans h2).trans (numSign_suffix s)
    · simp only [Except.ok.injEq, Prod.mk.injEq] at h
      obtain ⟨-, rfl⟩ := h
      exact (takeDigits_suffix _).trans (numSign_suffix s)

theorem skipWs_eq_suffix {s t : Chars} (h : skipWs s = t) : t <:+ s :=
  h ▸ skipWs_suffix s

theorem skipWs_cons_suffix {s t : Chars} {c : Char} (h : skipWs s = c :: t) : t <:+ s :=
  (List.suffix_cons c t).trans (h ▸ skipWs_suffix s)

theorem parseLit_suffix (lit : Chars) (v : Json) (s : Chars) (w : Json) (r : Chars)
    (h : parseLit lit v s = .ok (w, r)) : r <:+ s := by
  unfold parseLit at h
  split at h
  · rename_i r2 heq
    simp only [Except.ok.injEq, Prod.mk.injEq] at h
    obtain ⟨-, hr⟩ := h
    exact hr ▸ stripLit_suffix _ _ _ heq
  · simp at h

theorem parseStrVal_suffix (s : Chars) (w : Json) (r : Chars)
    (h : parseStrVal s = .ok (w, r)) : r <:+ s := by
  unfold parseStrVal at h
  split at h
  · simp at h
  · rename_i p q heq
    simp only [Except.ok.injEq, Prod.mk.injEq] at h
    obtain ⟨-, hr⟩ := h
    exact hr ▸ parseStrBody_suffix _ _ _ heq

theorem parseArrStart_suffix (pA : Chars → Except Chars (List Json × Chars))
    (hp : ∀ s l r, pA s = .ok (l, r) → r <:+ s)
    (s : Chars) (w : Json) (r : Chars)
    (h : parseArrStart pA s = .ok (w, r)) : r <:+ s := by
  unfold parseArrStart at h
  split at h
  · rename_i r2 heq
    simp only [Except.ok.injEq, Prod.mk.injEq] at h
    obtain ⟨-, hr⟩ := h
    exact hr ▸ skipWs_cons_suffix heq
  · split at h
    · simp at h
    · rename_i l r3 heq2
      simp only [Except.ok.injEq, Prod.mk.injEq] at h
      obtain ⟨-, hr⟩ := h
      exact hr ▸ ((hp _ l r3 heq2).trans (skipWs_suffix s))

theorem parseObjStart_suffix (pO : Chars → Except Chars (List (Chars × Json) × Chars))
    (hp : ∀ s l r, pO s = .ok (l, r) → r <:+ s)
    (s : Chars) (w : Json) (r : Chars)
    (h : parseObjStart pO s = .ok (w, r)) : r <:+ s := by
  unfold parseObjStart at h
  split at h
  · rename_i r2 heq
    simp only [Except.ok.injEq, Prod.mk.injEq] at h
    obtain ⟨-, hr⟩ := h
    exact hr ▸ skipWs_cons_suffix heq
  · split at h
    · simp at h
    · rename_i l r3 heq2
      simp only [Except.ok.injEq, Prod.mk.injEq] at h
      obtain ⟨-, hr⟩ := h
      exact hr ▸ ((hp _ l r3 heq2).trans (skipWs_suffix s))

theorem parseJson_suffix_all (fuel : Nat) :
    (∀ s v rest, parseJson fuel s = .ok (v, rest) → rest <:+ s)
    ∧ (∀ s l rest, parseArrRest fuel s = .ok (l, rest) → rest <:+ s)
    ∧ (∀ s l rest, parseObjRest fuel s = .ok (l, rest) → rest <:+ s) := by
  induction fuel with
  | zero =>
    refine ⟨?_, ?_, ?_⟩ <;> intro s a rest h <;>
      simp [parseJson, parseArrRest, parseObjRest] at h
  | succ fuel ih =>
    obtain ⟨ihJ, ihA, ihO⟩ := ih
    refine ⟨?_, ?_, ?_⟩
    · intro s v rest h
      rw [parseJson] at h
      split at h
      · simp at h
      · rename_i c rest1 hskip
        have hr1 : rest1 <:+ s := skipWs_cons_suffix hskip
        have hc : (c :: rest1) <:+ s := skipWs_eq_suffix hskip
        split at h
        · exact (parseLit_suffix _ _ _ _ _ h).trans hr1
        · split at h
          · exact (parseLit_suffix _ _ _ _ _ h).trans hr1
          · split at h
            · exact (parseLit_suffix _ _ _ _ _ h).trans hr1
            · split at h
              · exact (parseStrVal_suffix _ _ _ h).trans hr1
              · split at h
                · exact (parseArrStart_suffix _ ihA _ _ _ h).trans hr1
                · split at h
                  · exact (parseObjStart_suffix _ ihO _ _ _ h).trans hr1
                  · split at h
                    · exact (parseNum_suffix _ _ _ h).trans hc
                    · simp at h
    · intro s l rest h
      rw [parseArrRest] at h
      split at h
      · simp at h
      · rename_i v s1 heq
        have h1 : s1 <:+ s := ihJ s v s1 heq
        split at h
        · rename_i s2 hskip
          have h3 : s2 <:+ s := (skipWs_cons_suffix hskip).trans h1
          split at h
          · simp at h
          · rename_i l2 s3 heq2
            simp only [Except.ok.injEq, Prod.mk.injEq] at h
            obtain ⟨-, hr⟩ := h
            exact hr ▸ ((ihA s2 l2 s3 heq2).trans h3)
        · rename_i s2 hskip
          simp only [Except.ok.injEq, Prod.mk.injEq] at h
          obtain ⟨-, hr⟩ := h
          exact hr ▸ ((skipWs_cons_suffix hskip).trans h1)
        · simp at h
    · intro s l rest h
      rw [parseObjRest] at h
      split at h
      · rename_i s1 hskip
        have h1b : s1 <:+ s := skipWs_cons_suffix hskip
        split at h
        · simp at h
        · rename_i k s2 heqk
          have h2 : s2 <:+ s := (parseStrBody_suffix _ _ _ heqk).trans h1b
          split at h
          · rename_i s3 hskip2
            have h3 : s3 <:+ s := (skipWs_cons_suffix hskip2).trans h2
            split at h
            · simp at h
            · rename_i v s4 heqv
              have h4 : s4 <:+ s := (ihJ s3 v s4 heqv).trans h3
              split at h
              · rename_i s5 hskip3
                have h5 : s5 <:+ s := (skipWs_cons_suffix hskip3).trans h4
                split at h
                · simp at h
                · rename_i l2 s6 heq2
                  simp only [Except.ok.injEq, Prod.mk.injEq] at h
                  obtain ⟨-, hr⟩ := h
                  exact hr ▸ ((ihO s5 l2 s6 heq2).trans h5)
              · rename_i s5 hskip3
                simp only [Except.ok.injEq, Prod.mk.injEq] at h
                obtain ⟨-, hr⟩ := h
                exact hr ▸ ((skipWs_cons_suffix hskip3).trans h4)
              · simp at h
          · simp at h
      · simp at h

theorem stopTok_of_head {c : Char} (t : Chars) (h : (!isDigitCh c && !(c = '.')) = true) :
    stopTok (c :: t) = true := h

theorem skipWs_cons_not {c : Char} (t : Chars) (h : isWs c = false) :
    skipWs (c :: t) = c :: t := by
  simp [skipWs, h]

theorem stripLit_append (l rest : Chars) : stripLit l (l ++ rest) = some rest := by
  induction l with
  | nil => simp [stripLit]
  | cons c l ih => simp [stripLit, ih]

theorem parseStrBody_ser (s rest : Chars) :
    parseStrBody (serStrBody s ++ '"' :: rest) = .ok (s, rest) := by
  induction s with
  | nil =>
    simp only [serStrBody, List.flatMap_nil, List.nil_append]
    rw [parseStrBody.eq_def]
    dsimp only
    rw [if_pos rfl]
  | cons c s ih =>
    unfold serStrBody at ih
    by_cases hc : c = '"' ∨ c = '\\'
    · have hesc : escCh c = ['\\', c] := by
        unfold escCh
        rcases hc with h | h <;> simp [h]
      simp only [serStrBody, List.flatMap_cons, hesc, List.cons_append, List.nil_append]
      rw [parseStrBody.eq_def]
      dsimp only
      rw [if_neg (by decide), if_pos rfl, ih]
    · push_neg at hc
      have hesc : escCh c = [c] := by
        unfold escCh
        simp [hc.1, hc.2]
      simp only [serStrBody, List.flatMap_cons, hesc, List.cons_append, List.nil_append]
      rw [parseStrBody.eq_def]
      dsimp only
      rw [if_neg hc.1, if_neg hc.2, ih]

theorem takeDigits_split (d rest : Chars) (hd : ∀ c ∈ d, isDigitCh c = true)
    (hrest : notDigitStart rest = true) : takeDigits (d ++ rest) = (d, rest) := by
  induction d with
  | nil =>
    cases rest with
    | nil => simp [takeDigits]
    | cons c r =>
      simp only [notDigitStart, Bool.not_eq_true'] at hrest
      simp [takeDigits, hrest]
  | cons c d ih =>
    have hc : isDigitCh c = true := hd c (by simp)
    simp only [List.cons_append, takeDigits, hc, if_pos, List.append_eq]
    rw [ih (fun x hx => hd x (by simp [hx]))]

theorem numSign_neg (t : Chars) : numSign ('-' :: t) = (true, t) := rfl

theorem numSign_pos (t : Chars) (h : notDigitStart t = false) : numSign t = (false, t) := by
  cases t with
  | nil => simp [notDigitStart] at h
  | cons c r =>
    simp only [notDigitStart, Bool.not_eq_false'] at h
    unfold numSign
    split
    · rename_i heq
      exfalso
      have : c = '-' := by
        injection heq with h1 h2
      rw [this] at h
      simp [isDigitCh] at h
    · rfl

theorem parseNum_ser (neg : Bool) (ip fp rest : Chars)
    (hip : ip ≠ []) (hipd : ∀ c ∈ ip, isDigitCh c = true)
    (hfpd : ∀ c ∈ fp, isDigitCh c = true) (hrest : stopTok rest = true) :
    parseNum (serNum neg ip fp ++ rest) = .ok (.num neg ip fp, rest) := by
  have hnds : ∀ r : Chars, stopTok r = true → notDigitStart r = true := by
    intro r hr
    cases r with
    | nil => rfl
    | cons c t =>
      simp only [stopTok, Bool.and_eq_true, Bool.not_eq_true'] at hr
      simp [notDigitStart, hr.1]
  by_cases hfp : fp = []
  · subst hfp
    have hsplit : serNum neg ip [] ++ rest = (if neg then ['-'] else []) ++ (ip ++ rest) := by
      simp [serNum]
    rw [hsplit]
    have hsign : numSign ((if neg then ['-'] else []) ++ (ip ++ rest)) = (neg, ip ++ rest) := by
      cases neg with
      | true => exact numSign_neg (ip ++ rest)
      | false =>
        show numSign (ip ++ rest) = (false, ip ++ rest)
        apply numSign_pos
        cases ip with
        | nil => exact absurd rfl hip
        | cons c t =>
          have : isDigitCh c = true := hipd c (by simp)
          simp [notDigitStart, this]
    unfold parseNum
    rw [hsign]
    dsimp only
    rw [takeDigits_split ip rest hipd (hnds rest hrest)]
    simp only [if_neg hip]
    cases rest with
    | nil => rfl
    | cons c t =>
      simp only [stopTok, Bool.and_eq_true, Bool.not_eq_true'] at hrest
      split
      · rename_i s3 heq
        exfalso
        injection heq with h1 h2
        exact absurd h1 (by simpa using hrest.2)
      · rfl
  · have hsplit : serNum neg ip fp ++ rest
        = (if neg then ['-'] else []) ++ (ip ++ ('.' :: (fp ++ rest))) := by
      simp [serNum, hfp]
    rw [hsplit]
    have hsign : numSign ((if neg then ['-'] else []) ++ (ip ++ ('.' :: (fp ++ rest))))
        = (neg, ip ++ ('.' :: (fp ++ rest))) := by
      cases neg with
      | true => exact numSign_neg (ip ++ ('.' :: (fp ++ rest)))
      | false =>
        show numSign (ip ++ ('.' :: (fp ++ rest))) = (false, ip ++ ('.' :: (fp ++ rest)))
        apply numSign_pos
        cases ip with
        | nil => exact absurd rfl hip
        | cons c t =>
          have : isDigitCh c = true := hipd c (by simp)
          simp [notDigitStart, this]
    unfold parseNum
    rw [hsign]
    dsimp only
    rw [takeDigits_split ip ('.' :: (fp ++ rest)) hipd (by simp [notDigitStart, isDigitCh])]
    simp only [if_neg hip]
    rw [takeDigits_split fp rest hfpd (hnds rest hrest)]
    have hfpne : fp ≠ [] := hfp
    simp [if_neg hfpne]

theorem digit_head_ok {c : Char} (h : isDigitCh c = true) :
    isWs c = false ∧ c ≠ 'n' ∧ c ≠ 't' ∧ c ≠ 'f' ∧ c ≠ '"' ∧ c ≠ '['
      ∧ c ≠ '{' ∧ c ≠ ']' ∧ c ≠ '}' := by
  refine ⟨?_, ?_, ?_, ?_, ?_, ?_, ?_, ?_, ?_⟩
  · by_contra hw
    simp only [Bool.not_eq_false] at hw
    have : ((c = ' ' ∨ c = '\n') ∨ c = '\t') ∨ c = '\r' := by
      simpa [isWs, Bool.or_eq_true, decide_eq_true_eq] using hw
    rcases this with ((rfl | rfl) | rfl) | rfl <;> exact absurd h (by decide)
  all_goals (rintro rfl; exact absurd h (by decide))

/-- The first character of a serialized well-formed value, with the facts the
parser dispatch needs about it. -/
theorem serialize_head (v : Json) (hwf : JsonWF v) :
    ∃ c t, serialize v = c :: t ∧ isWs c = false ∧ c ≠ ']' ∧ c ≠ '}' := by
  cases v with
  | null => exact ⟨'n', _, rfl, by decide, by decide, by decide⟩
  | bool b =>
    cases b with
    | true => exact ⟨'t', ['r', 'u', 'e'], by simp [serialize], by decide, by decide, by decide⟩
    | false => exact ⟨'f', ['a', 'l', 's', 'e'], by simp [serialize], by decide, by decide, by decide⟩
  | str s0 => exact ⟨'"', _, rfl, by decide, by decide, by decide⟩
  | arr l => exact ⟨'[', _, rfl, by decide, by decide, by decide⟩
  | obj l => exact ⟨'{', _, rfl, by decide, by decide, by decide⟩
  | num neg ip fp =>
    obtain ⟨hip, hipd, hfpd⟩ := hwf
    cases neg with
    | true => exact ⟨'-', _, rfl, by decide, by decide, by decide⟩
    | false =>
      cases ip with
      | nil => exact absurd rfl hip
      | cons c ipt =>
        have hd := digit_head_ok (hipd c (by simp))
        refine ⟨c, ipt ++ (if fp = [] then [] else '.' :: fp), ?_, hd.1, hd.2.2.2.2.2.2.2.1, hd.2.2.2.2.2.2.2.2⟩
        simp [serialize, serNum]

theorem jsize_pos (v : Json) : 1 ≤ jsize v := by
  cases v <;> simp [jsize]

theorem jsizeList_pos (l : List Json) : 1 ≤ jsizeList l := by
  cases l
  · simp [jsizeList]
  · simp [jsizeList]
    omega

theorem jsizeEntries_pos (l : List (Chars × Json)) : 1 ≤ jsizeEntries l := by
  cases l
  · simp [jsizeEntries]
  · simp [jsizeEntries]
    omega

theorem parseJson_ser_all (fuel : Nat) :
    (∀ v rest, JsonWF v → jsize v < fuel → stopTok rest = true →
      parseJson fuel (serialize v ++ rest) = .ok (v, rest))
    ∧ (∀ l rest, l ≠ [] → JsonWFList l → jsizeList l < fuel →
      parseArrRest fuel (serArrElems l ++ ']' :: rest) = .ok (l, rest))
    ∧ (∀ l rest, l ≠ [] → JsonWFEntries l → jsizeEntries l < fuel →
      parseObjRest fuel (serObjEntries l ++ '}' :: rest) = .ok (l, rest)) := by
  induction fuel with
  | zero =>
    refine ⟨?_, ?_, ?_⟩
    · intro v rest _ hsz _
      exact absurd hsz (by have := jsize_pos v; omega)
    · intro l rest _ _ hsz
      exact absurd hsz (by have := jsizeList_pos l; omega)
    · intro l rest _ _ hsz
      exact absurd hsz (by have := jsizeEntries_pos l; omega)
  | succ fuel ih =>
    obtain ⟨ihJ, ihA, ihO⟩ := ih
    refine ⟨?_, ?_, ?_⟩
    · intro v rest hwf hsz hstop
      cases v with
      | null =>
        rw [show serialize Json.null ++ rest = 'n' :: (['u', 'l', 'l'] ++ rest) by
          simp [serialize]]
        rw [parseJson, skipWs_cons_not _ (by decide)]
        dsimp only
        rw [if_pos rfl]
        simp [parseLit, stripLit]
      | bool b =>
        cases b with
        | true =>
          rw [show serialize (Json.bool true) ++ rest = 't' :: (['r', 'u', 'e'] ++ rest) by
            simp [serialize]]
          rw [parseJson, skipWs_cons_not _ (by decide)]
          try dsimp only
          rw [if_neg (by decide), if_pos rfl]
          simp [parseLit, stripLit]
        | false =>
          rw [show serialize (Json.bool false) ++ rest
              = 'f' :: (['a', 'l', 's', 'e'] ++ rest) by simp [serialize]]
          rw [parseJson, skipWs_cons_not _ (by decide)]
          try dsimp only
          rw [if_neg (by decide), if_neg (by decide), if_pos rfl]
          simp [parseLit, stripLit]
      | str s0 =>
        rw [show serialize (Json.str s0) ++ rest = '"' :: (serStrBody s0 ++ '"' :: rest) by
          simp [serialize, serStr]]
        rw [parseJson, skipWs_cons_not _ (by decide)]
        dsimp only
        rw [if_neg (by decide), if_neg (by decide), if_neg (by decide), if_pos rfl]
        simp [parseStrVal, parseStrBody_ser]
      | num neg ip fp =>
        obtain ⟨hip, hipd, hfpd⟩ := hwf
        have hhead : ∃ c t, serNum neg ip fp ++ rest = c :: t ∧ isWs c = false
            ∧ ¬(c = 'n') ∧ ¬(c = 't') ∧ ¬(c = 'f') ∧ ¬(c = '"') ∧ ¬(c = '[')
            ∧ ¬(c = '{') ∧ (c = '-' || isDigitCh c) = true := by
          cases neg with
          | true =>
            exact ⟨'-', ip ++ (if fp = [] then [] else '.' :: fp) ++ rest,
              by simp [serNum], by decide, by decide, by decide, by decide,
              by decide, by decide, by decide, by decide⟩
          | false =>
            cases ip with
            | nil => exact absurd rfl hip
            | cons c ipt =>
              have hdig : isDigitCh c = true := hipd c (by simp)
              have hd := digit_head_ok hdig
              exact ⟨c, ipt ++ (if fp = [] then [] else '.' :: fp) ++ rest,
                by simp [serNum], hd.1, hd.2.1, hd.2.2.1, hd.2.2.2.1, hd.2.2.2.2.1,
                hd.2.2.2.2.2.1, hd.2.2.2.2.2.2.1, by simp [hdig]⟩
        obtain ⟨c, t, heq, hws, h1, h2, h3, h4, h5, h6, hnum⟩ := hhead
        rw [show serialize (Json.num neg ip fp) ++ rest = serNum neg ip fp ++ rest from rfl]
        rw [parseJson, heq, skipWs_cons_not _ hws]
        dsimp only
        rw [if_neg h1, if_neg h2, if_neg h3, if_neg h4, if_neg h5, if_neg h6, if_pos hnum]
        rw [← heq]
        exact parseNum_ser neg ip fp rest hip hipd hfpd hstop
      | arr l =>
        have hwl : JsonWFList l := hwf
        have hszl : jsizeList l < fuel := by
          have : jsize (Json.arr l) = 1 + jsizeList l := by simp [jsize]
          omega
        rw [show serialize (Json.arr l) ++ rest = '[' :: (serArrElems l ++ ']' :: rest) by
          simp [serialize]]
        rw [parseJson, skipWs_cons_not _ (by decide)]
        dsimp only
        rw [if_neg (by decide), if_neg (by decide), if_neg (by decide), if_neg (by decide),
          if_pos rfl]
        cases l with
        | nil =>
          rw [show serArrElems [] ++ ']' :: rest = ']' :: rest by simp [serArrElems]]
          rw [parseArrStart, skipWs_cons_not _ (by decide)]
          rfl
        | cons v t =>
          obtain ⟨c, ct, hser, hws2, hne1, hne2⟩ := serialize_head v hwl.1
          have hsfx : ∃ sfx, serArrElems (v :: t) = serialize v ++ sfx := by
            cases t with
            | nil => exact ⟨[], by simp [serArrElems]⟩
            | cons w t2 => exact ⟨',' :: serArrElems (w :: t2), rfl⟩
          obtain ⟨sfx, hsfxe⟩ := hsfx
          have hshape : serArrElems (v :: t) ++ ']' :: rest
              = c :: (ct ++ (sfx ++ ']' :: rest)) := by
            rw [hsfxe, hser]
            simp
          rw [parseArrStart, hshape, skipWs_cons_not _ hws2]
          split
          · rename_i r2 heq2
            exfalso
            injection heq2 with hh _
            exact hne1 hh
          · rw [← hshape, ihA (v :: t) rest (by simp) hwl hszl]
      | obj l =>
        have hwl : JsonWFEntries l := hwf
        have hszl : jsizeEntries l < fuel := by
          have : jsize (Json.obj l) = 1 + jsizeEntries l := by simp [jsize]
          omega
        rw [show serialize (Json.obj l) ++ rest = '{' :: (serObjEntries l ++ '}' :: rest) by
          simp [serialize]]
        rw [parseJson, skipWs_cons_not _ (by decide)]
        dsimp only
        rw [if_neg (by decide), if_neg (by decide), if_neg (by decide), if_neg (by decide),
          if_neg (by decide), if_pos rfl]
        cases l with
        | nil =>
          rw [show serObjEntries [] ++ '}' :: rest = '}' :: rest by simp [serObjEntries]]
          rw [parseObjStart, skipWs_cons_not _ (by decide)]
          rfl
        | cons e t =>
          have hshape : ∃ X, serObjEntries (e :: t) ++ '}' :: rest = '"' :: X := by
            cases t with
            | nil =>
              obtain ⟨k, v⟩ := e
              exact ⟨serStrBody k ++ '"' :: ':' :: (serialize v ++ '}' :: rest),
                by simp [serObjEntries, serStr]⟩
            | cons e2 t2 =>
              obtain ⟨k, v⟩ := e
              exact ⟨serStrBody k ++ '"' :: ':' :: (serialize v
                ++ ',' :: (serObjEntries (e2 :: t2) ++ '}' :: rest)),
                by simp [serObjEntries, serStr]⟩
          obtain ⟨X, hshape⟩ := hshape
          rw [parseObjStart, hshape, skipWs_cons_not _ (by decide)]
          split
          · rename_i r2 heq2
            exfalso
            injection heq2 with hh _
            exact absurd hh (by decide)
          · rw [← hshape, ihO (e :: t) rest (by simp) hwl hszl]
    · intro l rest hne hwl hsz
      cases l with
      | nil => exact absurd rfl hne
      | cons v t =>
        obtain ⟨hv, ht⟩ := hwl
        have hszv : jsize v < fuel := by
          have h1 : jsizeList (v :: t) = 1 + jsize v + jsizeList t := rfl
          have h2 := jsizeList_pos t
          omega
        cases t with
        | nil =>
          rw [show serArrElems [v] ++ ']' :: rest = serialize v ++ ']' :: rest by
            simp [serArrElems]]
          rw [parseArrRest, ihJ v (']' :: rest) hv hszv (stopTok_of_head _ (by decide))]
          try dsimp only
          rw [skipWs_cons_not _ (by decide)]
          rfl
        | cons w t2 =>
          have hszt : jsizeList (w :: t2) < fuel := by
            have h1 : jsizeList (v :: w :: t2) = 1 + jsize v + jsizeList (w :: t2) := rfl
            omega
          rw [show serArrElems (v :: w :: t2) ++ ']' :: rest
              = serialize v ++ ',' :: (serArrElems (w :: t2) ++ ']' :: rest) by
            simp [serArrElems]]
          rw [parseArrRest, ihJ v (',' :: (serArrElems (w :: t2) ++ ']' :: rest)) hv hszv
            (stopTok_of_head _ (by decide))]
          try dsimp only
          rw [skipWs_cons_not _ (by decide)]
          split
          · rename_i s2 heq2
            injection heq2 with h1 h2
            subst h2
            rw [ihA (w :: t2) rest (by simp) ht hszt]
          · rename_i s2 heq2
            exfalso
            injection heq2 with hh h2
            exact absurd hh (by decide)
          · rename_i hcon1 hcon2
            exfalso
            exact hcon1 (serArrElems (w :: t2) ++ ']' :: rest) rfl
    · intro l rest hne hwl hsz
      cases l with
      | nil => exact absurd rfl hne
      | cons e t =>
        obtain ⟨hv, ht⟩ := hwl
        obtain ⟨k, v⟩ := e
        have hszv : jsize v < fuel := by
          have h1 : jsizeEntries ((k, v) :: t) = 1 + jsize v + jsizeEntries t := rfl
          have h2 := jsizeEntries_pos t
          omega
        cases t with
        | nil =>
          rw [show serObjEntries [(k, v)] ++ '}' :: rest
              = '"' :: (serStrBody k ++ '"' :: (':' :: (serialize v ++ '}' :: rest))) by
            simp [serObjEntries, serStr]]
          rw [parseObjRest, skipWs_cons_not _ (by decide)]
          split
          · rename_i s1 heq1
            injection heq1 with h1 h2
            subst h2
            rw [parseStrBody_ser k (':' :: (serialize v ++ '}' :: rest))]
            try dsimp only
            rw [skipWs_cons_not _ (by decide)]
            split
            · rename_i s3 heq3
              injection heq3 with h3 h4
              subst h4
              rw [ihJ v ('}' :: rest) hv hszv (stopTok_of_head _ (by decide))]
              try dsimp only
              rw [skipWs_cons_not _ (by decide)]
              split
              · rename_i s5 heq5
                exfalso
                injection heq5 with hh h6
                exact absurd hh (by decide)
              · rename_i s5 heq5
                injection heq5 with h5 h6
                subst h6
                rfl
              · rename_i hcon1 hcon2
                exfalso
                exact hcon2 rest rfl
            · rename_i hcon
              exfalso
              exact hcon (serialize v ++ '}' :: rest) rfl
          · rename_i hcon
            exfalso
            exact hcon (serStrBody k ++ '"' :: (':' :: (serialize v ++ '}' :: rest))) rfl
        | cons e2 t2 =>
          have hszt : jsizeEntries (e2 :: t2) < fuel := by
            have h1 : jsizeEntries ((k, v) :: e2 :: t2)
                = 1 + jsize v + jsizeEntries (e2 :: t2) := rfl
            omega
          rw [show serObjEntries ((k, v) :: e2 :: t2) ++ '}' :: rest
              = '"' :: (serStrBody k ++ '"' :: (':' :: (serialize v
                ++ ',' :: (serObjEntries (e2 :: t2) ++ '}' :: rest)))) by
            simp [serObjEntries, serStr]]
          rw [parseObjRest, skipWs_cons_not _ (by decide)]
          split
          · rename_i s1 heq1
            injection heq1 with h1 h2
            subst h2
            rw [parseStrBody_ser k (':' :: (serialize v
              ++ ',' :: (serObjEntries (e2 :: t2) ++ '}' :: rest)))]
            try dsimp only
            rw [skipWs_cons_not _ (by decide)]
            split
            · rename_i s3 heq3
              injection heq3 with h3 h4
              subst h4
              rw [ihJ v (',' :: (serObjEntries (e2 :: t2) ++ '}' :: rest)) hv hszv
                (stopTok_of_head _ (by decide))]
              try dsimp only
              rw [skipWs_cons_not _ (by decide)]
              split
              · rename_i s5 heq5
                injection heq5 with h5 h6
                subst h6
                rw [ihO (e2 :: t2) rest (by simp) ht hszt]
              · rename_i s5 heq5
                exfalso
                injection heq5 with hh h6
                exact absurd hh (by decide)
              · rename_i hcon1 hcon2
                exfalso
                exact hcon1 (serObjEntries (e2 :: t2) ++ '}' :: rest) rfl
            · rename_i hcon
              exfalso
              exact hcon (serialize v ++ ',' :: (serObjEntries (e2 :: t2) ++ '}' :: rest)) rfl
          · rename_i hcon
            exfalso
            exact hcon (serStrBody k ++ '"' :: (':' :: (serialize v
              ++ ',' :: (serObjEntries (e2 :: t2) ++ '}' :: rest)))) rfl

theorem parseJson_suffix (fuel : Nat) (s : Chars) (v : Json) (rest : Chars)
    (h : parseJson fuel s = .ok (v, rest)) : rest <:+ s :=
  (parseJson_suffix_all fuel).1 s v rest h

/-! ## Entry-point fuel -/


mutual

/-- A well-formed value's size is bounded by twice its serialization length. -/
theorem jsize_le_ser : ∀ v : Json, JsonWF v → jsize v ≤ 2 * (serialize v).length
  | .null, _ => by simp [jsize, serialize]
  | .bool b, _ => by cases b <;> simp [jsize, serialize]
  | .num neg ip fp, h => by
    have : 1 ≤ (serNum neg ip fp).length := by
      rcases h with ⟨hip, -, -⟩
      cases ip with
      | nil => exact absurd rfl hip
      | cons c t =>
        cases neg
        · simp [serNum]
        · simp [serNum]
    simp only [jsize, serialize]
    omega
  | .str s0, _ => by simp [jsize, serialize, serStr]; omega
  | .arr l, h => by
    have hl := jsizeList_le_ser l h
    simp only [jsize, serialize, List.length_cons, List.length_append]
    omega
  | .obj l, h => by
    have hl := jsizeEntries_le_ser l h
    simp only [jsize, serialize, List.length_cons, List.length_append]
    omega

/-- Size bound for array elements. -/
theorem jsizeList_le_ser : ∀ l : List Json, JsonWFList l →
    jsizeList l ≤ 2 * (serArrElems l).length + 3
  | [], _ => by simp [jsizeList, serArrElems]
  | [v], h => by
    have hv := jsize_le_ser v h.1
    simp only [jsizeList, serArrElems]
    omega
  | v :: w :: t, h => by
    have hv := jsize_le_ser v h.1
    have ht := jsizeList_le_ser (w :: t) h.2
    have hd : jsizeList (w :: t) = 1 + jsize w + jsizeList t := rfl
    simp only [jsizeList, serArrElems, List.length_append, List.length_cons]
    omega

/-- Size bound for object entries. -/
theorem jsizeEntries_le_ser : ∀ l : List (Chars × Json), JsonWFEntries l →
    jsizeEntries l ≤ 2 * (serObjEntries l).length + 3
  | [], _ => by simp [jsizeEntries, serObjEntries]
  | [(k, v)], h => by
    have hv := jsize_le_ser v h.1
    simp only [jsizeEntries, serObjEntries, List.length_append, List.length_cons]
    omega
  | (k, v) :: e :: t, h => by
    have hv := jsize_le_ser v h.1
    have ht := jsizeEntries_le_ser (e :: t) h.2
    have hd : jsizeEntries (e :: t) = 1 + jsize e.2 + jsizeEntries t := rfl
    simp only [jsizeEntries, serObjEntries, List.length_append, List.length_cons]
    omega

end

theorem parseJson_ser (fuel : Nat) (v : Json) (rest : Chars) (hwf : JsonWF v)
    (hsz : jsize v < fuel) (hstop : stopTok rest = true) :
    parseJson fuel (serialize v ++ rest) = .ok (v, rest) :=
  (parseJson_ser_all fuel).1 v rest hwf hsz hstop

theorem parseJsonTop_ser (v : Json) (hwf : JsonWF v) :
    parseJsonTop (serialize v) = .ok (v, []) := by
  have hb := jsize_le_ser v hwf
  have h := parseJson_ser (jfuel (serialize v)) v [] hwf (by unfold jfuel; omega) rfl
  simpa using h

/-! ### Parsing is local: a parse of a complete value extends over appended
input, with any amount of extra fuel -/

theorem stopTok_notDigit (t : Chars) (h : stopTok t = true) : notDigitStart t = true := by
  cases t with
  | nil => rfl
  | cons c t2 =>
    rw [stopTok] at h
    rw [notDigitStart]
    simp only [Bool.and_eq_true] at h
    exact h.1

theorem skipWs_append_cons (s t : Chars) (c : Char) (w : Chars) (h : skipWs s = c :: w) :
    skipWs (s ++ t) = c :: (w ++ t) := by
  induction s with
  | nil => simp [skipWs] at h
  | cons a s2 ih =>
    rw [skipWs] at h
    rw [List.cons_append, skipWs]
    split at h
    · rename_i ha
      rw [if_pos ha]
      exact ih h
    · rename_i ha
      rw [if_neg ha]
      injection h with h1 h2
      subst h1
      subst h2
      rfl

theorem stripLit_extend (lit : Chars) :
    ∀ (s r t : Chars), stripLit lit s = some r → stripLit lit (s ++ t) = some (r ++ t) := by
  induction lit with
  | nil =>
    intro s r t h
    rw [stripLit] at h
    injection h with h
    subst h
    rfl
  | cons c lit ih =>
    intro s r t h
    cases s with
    | nil => simp [stripLit] at h
    | cons a s2 =>
      rw [stripLit] at h
      rw [List.cons_append, stripLit]
      split at h
      · rename_i hac
        rw [if_pos hac]
        exact ih s2 r t h
      · simp at h

theorem parseLit_extend (lit : Chars) (v : Json) (s : Chars) (w : Json) (r t : Chars)
    (h : parseLit lit v s = .ok (w, r)) : parseLit lit v (s ++ t) = .ok (w, r ++ t) := by
  rw [parseLit] at h
  split at h
  · rename_i r0 heq
    injection h with h
    injection h with hv hr
    rw [parseLit, stripLit_extend lit s r0 t heq]
    dsimp only
    rw [hv, hr]
  · simp at h

theorem parseStrBody_extend_aux :
    ∀ (n : Nat) (s : Chars), s.length ≤ n →
      ∀ (v r t : Chars), parseStrBody s = .ok (v, r) →
        parseStrBody (s ++ t) = .ok (v, r ++ t) := by
  intro n
  induction n with
  | zero =>
    intro s hs v r t h
    have hnil : s = [] := List.length_eq_zero.mp (Nat.le_zero.mp hs)
    subst hnil
    simp [parseStrBody] at h
  | succ n ih =>
    intro s hs v r t h
    cases s with
    | nil => simp [parseStrBody] at h
    | cons c rest =>
      simp only [List.length_cons, Nat.succ_le_succ_iff] at hs
      rw [parseStrBody.eq_def] at h
      dsimp only at h
      rw [List.cons_append, parseStrBody.eq_def]
      dsimp only
      split at h
      · rename_i hc
        rw [if_pos hc]
        injection h with h
        injection h with hv hr
        rw [hv, hr]
      · rename_i hc
        rw [if_neg hc]
        split at h
        · rename_i hb
          rw [if_pos hb]
          cases rest with
          | nil => simp at h
          | cons d rest2 =>
            simp only [List.length_cons] at hs
            dsimp only at h
            rw [List.cons_append]
            dsimp only
            split at h
            · simp at h
            · rename_i s2 r2 heq
              rw [ih rest2 (by omega) s2 r2 t heq]
              dsimp only
              injection h with h
              injection h with hv hr
              rw [hv, hr]
        · rename_i hb
          rw [if_neg hb]
          split at h
          · simp at h
          · rename_i s2 r2 heq
            rw [ih rest hs s2 r2 t heq]
            dsimp only
            injection h with h
            injection h with hv hr
            rw [hv, hr]

theorem parseStrBody_extend (s v r t : Chars) (h : parseStrBody s = .ok (v, r)) :
    parseStrBody (s ++ t) = .ok (v, r ++ t) :=
  parseStrBody_extend_aux s.length s (Nat.le_refl _) v r t h

theorem parseStrVal_extend (s : Chars) (w : Json) (r t : Chars)
    (h : parseStrVal s = .ok (w, r)) : parseStrVal (s ++ t) = .ok (w, r ++ t) := by
  rw [parseStrVal] at h
  split at h
  · simp at h
  · rename_i s2 r2 heq
    injection h with h
    injection h with hv hr
    rw [parseStrVal, parseStrBody_extend s s2 r2 t heq]
    dsimp only
    rw [hv, hr]

theorem takeDigits_extend :
    ∀ (s d r t : Chars), takeDigits s = (d, r) →
      (r = [] → notDigitStart t = true) →
      takeDigits (s ++ t) = (d, r ++ t) := by
  intro s
  induction s with
  | nil =>
    intro d r t h hr
    rw [takeDigits] at h
    injection h with h1 h2
    subst h1
    subst h2
    cases t with
    | nil => rfl
    | cons c t2 =>
      have hd : notDigitStart (c :: t2) = true := hr rfl
      rw [notDigitStart] at hd
      rw [List.nil_append, takeDigits, if_neg (by simpa using hd)]
  | cons c s2 ih =>
    intro d r t h hr
    rw [takeDigits] at h
    split at h
    · rename_i hc
      dsimp only at h
      injection h with h1 h2
      rw [List.cons_append, takeDigits, if_pos hc]
      dsimp only
      rw [ih (takeDigits s2).1 (takeDigits s2).2 t rfl (fun hnil => hr (by rw [← h2, hnil]))]
      rw [h1, h2]
    · rename_i hc
      injection h with h1 h2
      rw [List.cons_append, takeDigits, if_neg hc, ← h1, ← h2]
      rfl

theorem numSign_not_dash (c : Char) (s : Chars) (h : ¬ c = '-') :
    numSign (c :: s) = (false, c :: s) := by
  rw [numSign.eq_def]
  split
  · rename_i heq
    exfalso
    injection heq with h1 h2
    exact h h1
  · rfl

theorem parseNum_extend (s : Chars) (v : Json) (r t : Chars)
    (h : parseNum s = .ok (v, r)) (hr : r = [] → stopTok t = true) :
    parseNum (s ++ t) = .ok (v, r ++ t) := by
  cases s with
  | nil => simp [parseNum, numSign, takeDigits] at h
  | cons c s0 =>
    have hns : numSign ((c :: s0) ++ t) = ((numSign (c :: s0)).1, (numSign (c :: s0)).2 ++ t) := by
      by_cases hc : c = '-'
      · subst hc
        rfl
      · rw [List.cons_append, numSign_not_dash _ _ hc, numSign_not_dash _ _ hc]
        rfl
    rw [parseNum] at h
    split at h
    · simp at h
    · rename_i hip
      rw [parseNum, hns]
      dsimp only
      split at h
      · rename_i s3 hdot
        have hint := takeDigits_extend (numSign (c :: s0)).2 (takeDigits (numSign (c :: s0)).2).1
          (takeDigits (numSign (c :: s0)).2).2 t rfl
          (fun hnil => absurd (hdot.symm.trans hnil) (by simp))
        rw [hint]
        dsimp only
        rw [if_neg hip, hdot, List.cons_append]
        try dsimp only
        split at h
        · simp at h
        · rename_i hfp
          injection h with h
          injection h with hv hrr
          have hfr := takeDigits_extend s3 (takeDigits s3).1 (takeDigits s3).2 t rfl
            (fun hnil => stopTok_notDigit t (hr (by rw [← hrr, hnil])))
          split
          · rename_i s3' heq
            injection heq with h1 h2
            subst h2
            rw [hfr]
            try dsimp only
            rw [if_neg hfp, hv, hrr]
          · rename_i hcon
            exact (hcon (s3 ++ t) rfl).elim
      · rename_i hcon
        injection h with h
        injection h with hv hrr
        have hint := takeDigits_extend (numSign (c :: s0)).2 (takeDigits (numSign (c :: s0)).2).1
          (takeDigits (numSign (c :: s0)).2).2 t rfl
          (fun hnil => stopTok_notDigit t (hr (by rw [← hrr, hnil])))
        rw [hint]
        try dsimp only
        rw [if_neg hip]
        split
        · rename_i s3 heq3
          exfalso
          rcases hcase : (takeDigits (numSign (c :: s0)).2).2 with - | ⟨c2, w⟩
          · rw [hcase, List.nil_append] at heq3
            have hst := hr (by rw [← hrr, hcase])
            rw [heq3, stopTok] at hst
            simp at hst
          · rw [hcase, List.cons_append] at heq3
            injection heq3 with hc2 hw
            exact hcon w (by rw [hcase, hc2])
        · rw [hv, hrr]

theorem parseJson_nil (fuel : Nat) (v : Json) (r : Chars) :
    ¬ parseJson fuel [] = .ok (v, r) := by
  intro h
  cases fuel with
  | zero => simp [parseJson] at h
  | succ f =>
    rw [parseJson] at h
    simp [skipWs] at h

theorem parseArrRest_nil (fuel : Nat) (l : List Json) (r : Chars) :
    ¬ parseArrRest fuel [] = .ok (l, r) := by
  intro h
  cases fuel with
  | zero => simp [parseArrRest] at h
  | succ f =>
    rw [parseArrRest] at h
    split at h
    · simp at h
    · rename_i v s1 heq
      exact parseJson_nil f v s1 heq

theorem parseObjRest_nil (fuel : Nat) (l : List (Chars × Json)) (r : Chars) :
    ¬ parseObjRest fuel [] = .ok (l, r) := by
  intro h
  cases fuel with
  | zero => simp [parseObjRest] at h
  | succ f =>
    rw [parseObjRest] at h
    split at h
    · rename_i s1 heq
      simp [skipWs] at heq
    · simp at h

theorem parseArrStart_extend (t : Chars)
    (pA pA2 : Chars → Except Chars (List Json × Chars))
    (hnil : ∀ l r, ¬ pA [] = .ok (l, r))
    (hpa : ∀ s l r, pA s = .ok (l, r) → (r = [] → stopTok t = true) →
      pA2 (s ++ t) = .ok (l, r ++ t))
    (s : Chars) (v : Json) (r : Chars)
    (h : parseArrStart pA s = .ok (v, r)) (hr : r = [] → stopTok t = true) :
    parseArrStart pA2 (s ++ t) = .ok (v, r ++ t) := by
  rw [parseArrStart] at h
  split at h
  · rename_i r2 hskip
    injection h with h
    injection h with hv hr2
    rw [parseArrStart, skipWs_append_cons s t _ _ hskip]
    split
    · rename_i r4 heq4
      injection heq4 with hc4 hw4
      rw [← hw4, hv, hr2]
    · rename_i hcon2
      exact absurd rfl (hcon2 (r2 ++ t))
  · rename_i hcon
    split at h
    · simp at h
    · rename_i l r3 heq
      injection h with h
      injection h with hv hr3
      rcases hsk : skipWs s with - | ⟨c, w⟩
      · rw [hsk] at heq
        exact absurd heq (hnil l r3)
      · rw [parseArrStart, skipWs_append_cons s t _ _ hsk]
        split
        · rename_i r4 heq4
          exfalso
          injection heq4 with hc hw
          exact hcon w (by rw [hsk, hc])
        · rw [show c :: (w ++ t) = (c :: w) ++ t from rfl, ← hsk]
          rw [hpa (skipWs s) l r3 heq (fun hnil2 => hr (by rw [← hr3, hnil2]))]
          dsimp only
          rw [hv, hr3]

theorem parseObjStart_extend (t : Chars)
    (pO pO2 : Chars → Except Chars (List (Chars × Json) × Chars))
    (hnil : ∀ l r, ¬ pO [] = .ok (l, r))
    (hpo : ∀ s l r, pO s = .ok (l, r) → (r = [] → stopTok t = true) →
      pO2 (s ++ t) = .ok (l, r ++ t))
    (s : Chars) (v : Json) (r : Chars)
    (h : parseObjStart pO s = .ok (v, r)) (hr : r = [] → stopTok t = true) :
    parseObjStart pO2 (s ++ t) = .ok (v, r ++ t) := by
  rw [parseObjStart] at h
  split at h
  · rename_i r2 hskip
    injection h with h
    injection h with hv hr2
    rw [parseObjStart, skipWs_append_cons s t _ _ hskip]
    split
    · rename_i r4 heq4
      injection heq4 with hc4 hw4
      rw [← hw4, hv, hr2]
    · rename_i hcon2
      exact absurd rfl (hcon2 (r2 ++ t))
  · rename_i hcon
    split at h
    · simp at h
    · rename_i l r3 heq
      injection h with h
      injection h with hv hr3
      rcases hsk : skipWs s with - | ⟨c, w⟩
      · rw [hsk] at heq
        exact absurd heq (hnil l r3)
      · rw [parseObjStart, skipWs_append_cons s t _ _ hsk]
        split
        · rename_i r4 heq4
          exfalso
          injection heq4 with hc hw
          exact hcon w (by rw [hsk, hc])
        · rw [show c :: (w ++ t) = (c :: w) ++ t from rfl, ← hsk]
          rw [hpo (skipWs s) l r3 heq (fun hnil2 => hr (by rw [← hr3, hnil2]))]
          dsimp only
          rw [hv, hr3]

theorem parseJson_extend_all :
    ∀ (fuel fuel2 : Nat), fuel ≤ fuel2 →
      (∀ s v r t, parseJson fuel s = .ok (v, r) → (r = [] → stopTok t = true) →
        parseJson fuel2 (s ++ t) = .ok (v, r ++ t))
      ∧ (∀ s l r t, parseArrRest fuel s = .ok (l, r) → (r = [] → stopTok t = true) →
        parseArrRest fuel2 (s ++ t) = .ok (l, r ++ t))
      ∧ (∀ s l r t, parseObjRest fuel s = .ok (l, r) → (r = [] → stopTok t = true) →
        parseObjRest fuel2 (s ++ t) = .ok (l, r ++ t)) := by
  intro fuel
  induction fuel with
  | zero =>
    intro fuel2 hle
    refine ⟨?_, ?_, ?_⟩ <;> intro s a r t h hr <;>
      simp [parseJson, parseArrRest, parseObjRest] at h
  | succ fuel ih =>
    intro fuel2 hle
    cases fuel2 with
    | zero => exact absurd hle (by omega)
    | succ fuel2 =>
      obtain ⟨ihJ, ihA, ihO⟩ := ih fuel2 (by omega)
      refine ⟨?_, ?_, ?_⟩
      · intro s v r t h hr
        rw [parseJson] at h
        split at h
        · simp at h
        · rename_i c rest1 hskip
          rw [parseJson, skipWs_append_cons s t _ _ hskip]
          dsimp only
          split at h
          · rename_i hc
            rw [if_pos hc]
            exact parseLit_extend _ _ _ _ _ _ h
          · rename_i hc
            rw [if_neg hc]
            split at h
            · rename_i hc2
              rw [if_pos hc2]
              exact parseLit_extend _ _ _ _ _ _ h
            · rename_i hc2
              rw [if_neg hc2]
              split at h
              · rename_i hc3
                rw [if_pos hc3]
                exact parseLit_extend _ _ _ _ _ _ h
              · rename_i hc3
                rw [if_neg hc3]
                split at h
                · rename_i hc4
                  rw [if_pos hc4]
                  exact parseStrVal_extend _ _ _ _ h
                · rename_i hc4
                  rw [if_neg hc4]
                  split at h
                  · rename_i hc5
                    rw [if_pos hc5]
                    exact parseArrStart_extend t (parseArrRest fuel) (parseArrRest fuel2)
                      (parseArrRest_nil fuel) (fun s2 l2 r2 => ihA s2 l2 r2 t) rest1 v r h hr
                  · rename_i hc5
                    rw [if_neg hc5]
                    split at h
                    · rename_i hc6
                      rw [if_pos hc6]
                      exact parseObjStart_extend t (parseObjRest fuel) (parseObjRest fuel2)
                        (parseObjRest_nil fuel) (fun s2 l2 r2 => ihO s2 l2 r2 t) rest1 v r h hr
                    · rename_i hc6
                      rw [if_neg hc6]
                      split at h
                      · rename_i hc7
                        rw [if_pos hc7]
                        exact parseNum_extend _ _ _ t h hr
                      · simp at h
      · intro s l r t h hr
        rw [parseArrRest] at h
        split at h
        · simp at h
        · rename_i v s1 heq
          have hs1 : ¬ s1 = [] := by
            intro hnil
            subst hnil
            split at h
            · rename_i s2 hsk
              simp [skipWs] at hsk
            · rename_i s2 hsk
              simp [skipWs] at hsk
            · simp at h
          rw [parseArrRest, ihJ s v s1 t heq (fun hnil => absurd hnil hs1)]
          try dsimp only
          split at h
          · rename_i s2 hskip
            rw [skipWs_append_cons s1 t _ _ hskip]
            split
            · rename_i s2x heqx
              injection heqx with h1 h2
              subst h2
              split at h
              · simp at h
              · rename_i l2 s3 heq2
                injection h with h
                injection h with hv hr3
                rw [ihA s2 l2 s3 t heq2 (fun hnil => hr (by rw [← hr3, hnil]))]
                try dsimp only
                rw [hv, hr3]
            · rename_i s2x heqx
              exfalso
              injection heqx with hh
              exact absurd hh (by decide)
            · rename_i hcon1 hcon2
              exact (hcon1 (s2 ++ t) rfl).elim
          · rename_i s2 hskip
            injection h with h
            injection h with hv hr3
            rw [skipWs_append_cons s1 t _ _ hskip]
            split
            · rename_i s2x heqx
              exfalso
              injection heqx with hh
              exact absurd hh (by decide)
            · rename_i s2x heqx
              injection heqx with h1 h2
              rw [← h2, hv, hr3]
            · rename_i hcon1 hcon2
              exact (hcon2 (s2 ++ t) rfl).elim
          · simp at h
      · intro s l r t h hr
        rw [parseObjRest] at h
        split at h
        · rename_i s1 hskip
          rw [parseObjRest, skipWs_append_cons s t _ _ hskip]
          split
          · rename_i s1x heqx
            injection heqx with h1 h2
            subst h2
            split at h
            · simp at h
            · rename_i k s2 heqk
              rw [parseStrBody_extend s1 k s2 t heqk]
              try dsimp only
              split at h
              · rename_i s3 hskip2
                rw [skipWs_append_cons s2 t _ _ hskip2]
                split
                · rename_i s3x heqx2
                  injection heqx2 with h3 h4
                  subst h4
                  split at h
                  · simp at h
                  · rename_i v s4 heqv
                    have hs4 : ¬ s4 = [] := by
                      intro hnil
                      subst hnil
                      split at h
                      · rename_i s5 hsk
                        simp [skipWs] at hsk
                      · rename_i s5 hsk
                        simp [skipWs] at hsk
                      · simp at h
                    rw [ihJ s3 v s4 t heqv (fun hnil => absurd hnil hs4)]
                    try dsimp only
                    split at h
                    · rename_i s5 hskip3
                      rw [skipWs_append_cons s4 t _ _ hskip3]
                      split
                      · rename_i s5x heqx3
                        injection heqx3 with h5 h6
                        subst h6
                        split at h
                        · simp at h
                        · rename_i l2 s6 heq2
                          injection h with h
                          injection h with hv hr3
                          rw [ihO s5 l2 s6 t heq2 (fun hnil => hr (by rw [← hr3, hnil]))]
                          try dsimp only
                          rw [hv, hr3]
                      · rename_i s5x heqx3
                        exfalso
                        injection heqx3 with hh
                        exact absurd hh (by decide)
                      · rename_i hcon1 hcon2
                        exact (hcon1 (s5 ++ t) rfl).elim
                    · rename_i s5 hskip3
                      injection h with h
                      injection h with hv hr3
                      rw [skipWs_append_cons s4 t _ _ hskip3]
                      split
                      · rename_i s5x heqx3
                        exfalso
                        injection heqx3 with hh
                        exact absurd hh (by decide)
                      · rename_i s5x heqx3
                        injection heqx3 with h5 h6
                        rw [← h6, hv, hr3]
                      · rename_i hcon1 hcon2
                        exact (hcon2 (s5 ++ t) rfl).elim
                    · simp at h
                · rename_i s3x heqx2
                  exact (heqx2 (s3 ++ t) rfl).elim
              · simp at h
          · rename_i hcon1
            exact (hcon1 (s1 ++ t) rfl).elim
        · simp at h

/-- A parse that consumed its whole input extends over any appended
non-number-start continuation, with any amount of fuel at least the
original. -/
theorem parseJson_extend (fuel fuel2 : Nat) (hle : fuel ≤ fuel2) (s : Chars) (v : Json)
    (t : Chars) (h : parseJson fuel s = .ok (v, [])) (ht : stopTok t = true) :
    parseJson fuel2 (s ++ t) = .ok (v, t) :=
  (parseJson_extend_all fuel fuel2 hle).1 s v [] t h (fun _ => ht)

/-! ### Number conversion roundtrips -/


theorem numOfInt_wf (n : Int) : JsonWF (numOfInt n) :=
  ⟨natDigits_ne_nil _, natDigits_all_digits _, by intro c hc; simp at hc⟩

theorem numOfDec_wf (m : Int) (e : Nat) : JsonWF (numOfDec m e) := by
  unfold numOfDec
  split
  · exact numOfInt_wf m
  · exact ⟨natDigits_ne_nil _, natDigits_all_digits _, natDigitsPad_all_digits _ _⟩

theorem intOfNum_numOfInt (n : Int) : jsonInt (numOfInt n) = .ok n := by
  show intOfNum (decide (n < 0)) (natDigits n.natAbs) [] = .ok n
  unfold intOfNum
  rw [if_pos rfl, digitsVal_natDigits]
  split
  · rename_i h
    have h2 : n < 0 := of_decide_eq_true h
    congr 1
    omega
  · rename_i h
    have h2 : ¬n < 0 := by simpa using h
    congr 1
    omega

theorem decOfNum_numOfDec (m : Int) (e : Nat) : jsonDec (numOfDec m e) = .ok (m, e) := by
  unfold numOfDec
  split
  · rename_i he
    subst he
    show Except.ok (decOfNum (decide (m < 0)) (natDigits m.natAbs) []) = .ok (m, 0)
    unfold decOfNum
    simp only [List.length_nil, pow_zero, mul_one, digitsVal_natDigits, Except.ok.injEq,
      Prod.mk.injEq]
    refine ⟨?_, trivial⟩
    have hd0 : digitsVal [] = 0 := rfl
    rw [hd0]
    split
    · rename_i h
      have h2 : m < 0 := of_decide_eq_true h
      omega
    · rename_i h
      have h2 : ¬m < 0 := by simpa using h
      omega
  · rename_i he
    show Except.ok (decOfNum (decide (m < 0)) (natDigits (m.natAbs / 10 ^ e))
      (natDigitsPad e (m.natAbs % 10 ^ e))) = .ok (m, e)
    unfold decOfNum
    have hmod : m.natAbs % 10 ^ e < 10 ^ e := Nat.mod_lt _ (Nat.pos_pow_of_pos e (by norm_num))
    simp only [natDigitsPad_length (by omega : 1 ≤ e) hmod, digitsVal_natDigits,
      digitsVal_natDigitsPad, Except.ok.injEq, Prod.mk.injEq]
    have hsum : m.natAbs / 10 ^ e * 10 ^ e + m.natAbs % 10 ^ e = m.natAbs := by
      rw [Nat.mul_comm]
      exact Nat.div_add_mod _ _
    rw [hsum]
    refine ⟨?_, trivial⟩
    split
    · rename_i h
      have h2 : m < 0 := of_decide_eq_true h
      omega
    · rename_i h
      have h2 : ¬m < 0 := by simpa using h
      omega

/-! ### Report parsing inverts report emission -/


theorem parseRepRest_ser :
    ∀ (fuel : Nat) (l : List (Chars × Json)) (rest : Chars), l ≠ [] → JsonWFEntries l →
      jsizeEntries l < fuel →
      parseRepRest fuel (serObjEntries l ++ '}' :: rest)
        = .ok (l.map (fun e => (e.1, e.2, serialize e.2)), rest) := by
  intro fuel
  induction fuel with
  | zero =>
    intro l rest _ _ hsz
    exact absurd hsz (by have := jsizeEntries_pos l; omega)
  | succ fuel ih =>
    intro l rest hne hwl hsz
    cases l with
    | nil => exact absurd rfl hne
    | cons e t =>
      obtain ⟨hv, ht⟩ := hwl
      obtain ⟨k, v⟩ := e
      have hszv : jsize v < fuel := by
        have h1 : jsizeEntries ((k, v) :: t) = 1 + jsize v + jsizeEntries t := rfl
        have h2 := jsizeEntries_pos t
        omega
      obtain ⟨c0, ct, hser, hws0, hne1, hne2⟩ := serialize_head v hv
      have hskipser : ∀ X : Chars, skipWs (serialize v ++ X) = serialize v ++ X := by
        intro X
        rw [hser]
        exact skipWs_cons_not _ hws0
      have htake : ∀ X : Chars,
          (serialize v ++ X).take ((serialize v ++ X).length - X.length) = serialize v := by
        intro X
        rw [List.length_append, Nat.add_sub_cancel]
        exact List.take_left _ _
      cases t with
      | nil =>
        rw [show serObjEntries [(k, v)] ++ '}' :: rest
            = '"' :: (serStrBody k ++ '"' :: (':' :: (serialize v ++ '}' :: rest))) by
          simp [serObjEntries, serStr]]
        rw [parseRepRest, skipWs_cons_not _ (by decide)]
        split
        · rename_i s1 heq1
          injection heq1 with h1 h2
          subst h2
          rw [parseStrBody_ser k (':' :: (serialize v ++ '}' :: rest))]
          try dsimp only
          rw [skipWs_cons_not _ (by decide)]
          split
          · rename_i s3 heq3
            injection heq3 with h3 h4
            subst h4
            rw [hskipser ('}' :: rest)]
            rw [parseJson_ser fuel v ('}' :: rest) hv hszv (stopTok_of_head _ (by decide))]
            try dsimp only
            rw [skipWs_cons_not _ (by decide)]
            split
            · rename_i s5 heq5
              exfalso
              injection heq5 with hh h6
              exact absurd hh (by decide)
            · rename_i s5 heq5
              injection heq5 with h5 h6
              subst h6
              rw [htake ('}' :: rest)]
              rfl
            · rename_i hcon1 hcon2
              exfalso
              exact hcon2 rest rfl
          · rename_i hcon
            exfalso
            exact hcon (serialize v ++ '}' :: rest) rfl
        · rename_i hcon
          exfalso
          exact hcon (serStrBody k ++ '"' :: (':' :: (serialize v ++ '}' :: rest))) rfl
      | cons e2 t2 =>
        have hszt : jsizeEntries (e2 :: t2) < fuel := by
          have h1 : jsizeEntries ((k, v) :: e2 :: t2)
              = 1 + jsize v + jsizeEntries (e2 :: t2) := rfl
          omega
        rw [show serObjEntries ((k, v) :: e2 :: t2) ++ '}' :: rest
            = '"' :: (serStrBody k ++ '"' :: (':' :: (serialize v
              ++ ',' :: (serObjEntries (e2 :: t2) ++ '}' :: rest)))) by
          simp [serObjEntries, serStr]]
        rw [parseRepRest, skipWs_cons_not _ (by decide)]
        split
        · rename_i s1 heq1
          injection heq1 with h1 h2
          subst h2
          rw [parseStrBody_ser k (':' :: (serialize v
            ++ ',' :: (serObjEntries (e2 :: t2) ++ '}' :: rest)))]
          try dsimp only
          rw [skipWs_cons_not _ (by decide)]
          split
          · rename_i s3 heq3
            injection heq3 with h3 h4
            subst h4
            rw [hskipser (',' :: (serObjEntries (e2 :: t2) ++ '}' :: rest))]
            rw [parseJson_ser fuel v (',' :: (serObjEntries (e2 :: t2) ++ '}' :: rest)) hv hszv
              (stopTok_of_head _ (by decide))]
            try dsimp only
            rw [skipWs_cons_not _ (by decide)]
            split
            · rename_i s5 heq5
              injection heq5 with h5 h6
              subst h6
              rw [ih (e2 :: t2) rest (by simp) ht hszt]
              rw [htake (',' :: (serObjEntries (e2 :: t2) ++ '}' :: rest))]
              rfl
            · rename_i s5 heq5
              exfalso
              injection heq5 with hh h6
              exact absurd hh (by decide)
            · rename_i hcon1 hcon2
              exfalso
              exact hcon1 (serObjEntries (e2 :: t2) ++ '}' :: rest) rfl
          · rename_i hcon
            exfalso
            exact hcon (serialize v
              ++ ',' :: (serObjEntries (e2 :: t2) ++ '}' :: rest)) rfl
        · rename_i hcon
          exfalso
          exact hcon (serStrBody k ++ '"' :: (':' :: (serialize v
            ++ ',' :: (serObjEntries (e2 :: t2) ++ '}' :: rest)))) rfl

theorem marshalNelBody_wf (r : NelReport) : JsonWF (marshalNelBody r) := by
  show JsonWFEntries _
  exact ⟨trivial, numOfDec_wf _ _, trivial, trivial, trivial, numOfInt_wf _, numOfInt_wf _,
    trivial, trivial, trivial⟩

theorem foldNelBody_marshal (base r : NelReport) :
    foldNelBody base [(['r', 'e', 'f', 'e', 'r', 'r', 'e', 'r'], .str r.referrer),
        (['s', 'a', 'm', 'p', 'l', 'i', 'n', 'g', '-', 'f', 'r', 'a', 'c', 't', 'i', 'o', 'n'],
          numOfDec r.samplingFraction.1 r.samplingFraction.2),
        (['s', 'e', 'r', 'v', 'e', 'r', '-', 'i', 'p'], .str r.serverIP),
        (['p', 'r', 'o', 't', 'o', 'c', 'o', 'l'], .str r.protocol),
        (['m', 'e', 't', 'h', 'o', 'd'], .str r.method),
        (['s', 't', 'a', 't', 'u', 's', '-', 'c', 'o', 'd', 'e'], numOfInt r.statusCode),
        (['e', 'l', 'a', 'p', 's', 'e', 'd', '-', 't', 'i', 'm', 'e'], numOfInt r.elapsedTime),
        (['p', 'h', 'a', 's', 'e'], .str r.phase),
        (['t', 'y', 'p', 'e'], .str r.typ)]
      = .ok { base with
              referrer := r.referrer
              samplingFraction := r.samplingFraction
              serverIP := r.serverIP
              protocol := r.protocol
              method := r.method
              statusCode := r.statusCode
              elapsedTime := r.elapsedTime
              phase := r.phase
              typ := r.typ } := by
  simp [foldNelBody, jsonStr, decOfNum_numOfDec, intOfNum_numOfInt]

theorem reportFromEntries_nel (r : NelReport) (hNel : r.reportType = networkError)
    (hraw : r.rawBody = []) (hanns : r.anns = []) (x1 x2 x3 x4 : Chars) :
    reportFromEntries [(['a', 'g', 'e'], numOfInt r.age, x1),
        (['t', 'y', 'p', 'e'], .str r.reportType, x2),
        (['u', 'r', 'l'], .str r.url, x3),
        (['b', 'o', 'd', 'y'], marshalNelBody r, x4)]
      = .ok r := by
  unfold reportFromEntries
  have hfold : foldRepEntries {} [(['a', 'g', 'e'], numOfInt r.age, x1),
      (['t', 'y', 'p', 'e'], .str r.reportType, x2),
      (['u', 'r', 'l'], .str r.url, x3),
      (['b', 'o', 'd', 'y'], marshalNelBody r, x4)]
      = .ok { age := r.age, reportType := r.reportType, url := r.url,
              body := some (marshalNelBody r, x4) } := by
    simp [foldRepEntries, jsonStr, intOfNum_numOfInt]
  rw [hfold]
  try dsimp only
  rw [if_pos hNel]
  try dsimp only [marshalNelBody]
  rw [foldNelBody_marshal]
  obtain ⟨age, rt, url, ref, sf, sip, pr, me, sc, et, ph, ty, rb, an⟩ := r
  simp only at hNel hraw hanns
  subst hNel hraw hanns
  rfl

theorem reportFromEntries_other (a : Int) (ty u braw : Chars) (bv : Json)
    (hty : ¬ty = networkError) (x1 x2 x3 : Chars) :
    reportFromEntries [(['a', 'g', 'e'], numOfInt a, x1),
        (['t', 'y', 'p', 'e'], .str ty, x2),
        (['u', 'r', 'l'], .str u, x3),
        (['b', 'o', 'd', 'y'], bv, braw)]
      = .ok { age := a, reportType := ty, url := u, rawBody := braw } := by
  unfold reportFromEntries
  have hfold : foldRepEntries {} [(['a', 'g', 'e'], numOfInt a, x1),
      (['t', 'y', 'p', 'e'], .str ty, x2),
      (['u', 'r', 'l'], .str u, x3),
      (['b', 'o', 'd', 'y'], bv, braw)]
      = .ok { age := a, reportType := ty, url := u, body := some (bv, braw) } := by
    simp [foldRepEntries, jsonStr, intOfNum_numOfInt]
  rw [hfold]
  simp only [if_neg hty]

/-- A nonempty serialized object-entry list starts with a double quote. -/
theorem serObjEntries_cons_head (k : Chars) (v : Json) (t : List (Chars × Json)) :
    ∃ tl : Chars, serObjEntries ((k, v) :: t) = '"' :: tl := by
  cases t with
  | nil =>
    refine ⟨serStrBody k ++ '"' :: ':' :: serialize v, ?_⟩
    simp [serObjEntries, serStr]
  | cons e rest =>
    refine ⟨serStrBody k ++ '"' :: ':' :: (serialize v ++ ',' :: serObjEntries (e :: rest)), ?_⟩
    simp [serObjEntries, serStr]

/-- Parsing a serialized nonempty object at the report level dispatches to
reportFromEntries on the entry list paired with its serialized raw bytes. -/
theorem parseReport_obj (fuel : Nat) (k : Chars) (v : Json) (t : List (Chars × Json))
    (hwfE : JsonWFEntries ((k, v) :: t))
    (hsz : jsizeEntries ((k, v) :: t) < fuel) :
    parseReport fuel ('{' :: (serObjEntries ((k, v) :: t) ++ '}' :: ([] : Chars)))
      = (reportFromEntries (((k, v) :: t).map (fun e => (e.1, e.2, serialize e.2)))).map
          (fun r => (r, ([] : Chars))) := by
  obtain ⟨tl, htl⟩ := serObjEntries_cons_head k v t
  rw [parseReport.eq_def]
  rw [skipWs_cons_not _ (by decide)]
  split
  · rename_i s1 heq1
    injection heq1 with hh ht
    subst ht
    rw [htl, List.cons_append, skipWs_cons_not _ (by decide)]
    split
    · rename_i s2 heq2
      exfalso
      injection heq2 with hh2
      exact absurd hh2 (by decide)
    · rw [← List.cons_append, ← htl]
      rw [parseRepRest_ser fuel ((k, v) :: t) [] (by simp) hwfE hsz]
      cases hre : reportFromEntries (((k, v) :: t).map (fun e => (e.1, e.2, serialize e.2))) with
      | error e =>
        dsimp only
        rw [hre]
        rfl
      | ok r =>
        dsimp only
        rw [hre]
        rfl
  · rename_i x hcon
    exact (hcon _ rfl).elim

/-- A serialized string key followed by anything has the shape of a leading
double quote. -/
theorem serStr_append_shape (k X : Chars) :
    serStr k ++ X = '"' :: (serStrBody k ++ '"' :: X) := by
  simp [serStr]

/-- Whitespace skipping fixes anything starting with a serialized key. -/
theorem skipWs_serStr_append (k X : Chars) :
    skipWs (serStr k ++ X) = serStr k ++ X := by
  rw [serStr_append_shape]
  exact skipWs_cons_not _ (by decide)

/-- Whitespace skipping fixes the extension of a nonempty fixed point. -/
theorem skipWs_append_self (s t : Chars) (hskip : skipWs s = s) (hne : s ≠ []) :
    skipWs (s ++ t) = s ++ t := by
  cases s with
  | nil => exact absurd rfl hne
  | cons c w =>
    rw [skipWs_append_cons (c :: w) t c w hskip, List.cons_append]

/-- One non-final report entry whose value bytes are compact serializer
output: parsing peels it off and recurses on the tail. -/
theorem parseRepRest_step (fuel : Nat) (k : Chars) (v : Json) (tail : Chars)
    (hwf : JsonWF v) (hsz : jsize v < fuel) :
    parseRepRest (fuel + 1) (serStr k ++ ':' :: (serialize v ++ ',' :: tail))
      = match parseRepRest fuel tail with
        | .error e => .error e
        | .ok (l, s6) => .ok ((k, v, serialize v) :: l, s6) := by
  obtain ⟨c0, ct, hser, hws0, hne1, hne2⟩ := serialize_head v hwf
  have hskipser : skipWs (serialize v ++ ',' :: tail) = serialize v ++ ',' :: tail := by
    rw [hser]
    exact skipWs_cons_not _ hws0
  have htake : (serialize v ++ ',' :: tail).take
      ((serialize v ++ ',' :: tail).length - (',' :: tail).length) = serialize v := by
    rw [List.length_append, Nat.add_sub_cancel]
    exact List.take_left _ _
  rw [show serStr k ++ ':' :: (serialize v ++ ',' :: tail)
      = '"' :: (serStrBody k ++ '"' :: (':' :: (serialize v ++ ',' :: tail))) by
    simp [serStr]]
  rw [parseRepRest, skipWs_cons_not _ (by decide)]
  split
  · rename_i s1 heq1
    injection heq1 with h1 h2
    subst h2
    rw [parseStrBody_ser k (':' :: (serialize v ++ ',' :: tail))]
    try dsimp only
    rw [skipWs_cons_not _ (by decide)]
    split
    · rename_i s3 heq3
      injection heq3 with h3 h4
      subst h4
      rw [hskipser]
      rw [parseJson_ser fuel v (',' :: tail) hwf hsz (stopTok_of_head _ (by decide))]
      try dsimp only
      rw [skipWs_cons_not _ (by decide)]
      split
      · rename_i s5 heq5
        injection heq5 with h5 h6
        subst h6
        rw [htake]
      · rename_i s5 heq5
        exfalso
        injection heq5 with hh h6
        exact absurd hh (by decide)
      · rename_i hcon1 hcon2
        exact (hcon1 tail rfl).elim
    · rename_i hcon
      exact (hcon (serialize v ++ ',' :: tail) rfl).elim
  · rename_i hcon
    exact (hcon (serStrBody k ++ '"' :: (':' :: (serialize v ++ ',' :: tail))) rfl).elim

/-- The final report entry with verbatim body bytes: any bytes that hold one
complete JSON value, starting at a non-whitespace byte, are captured exactly
as the entry's raw field. -/
theorem parseRepRest_last_raw (fuel : Nat) (k b : Chars) (j : Json) (rest : Chars)
    (hb : parseJson (jfuel b) b = .ok (j, []))
    (hskip : skipWs b = b) (hfuel : jfuel b ≤ fuel) :
    parseRepRest (fuel + 1) (serStr k ++ ':' :: (b ++ '}' :: rest))
      = .ok ([(k, j, b)], rest) := by
  have hbne : b ≠ [] := by
    intro hnil
    rw [hnil] at hb
    exact parseJson_nil _ _ _ hb
  have hskipb : skipWs (b ++ '}' :: rest) = b ++ '}' :: rest :=
    skipWs_append_self b ('}' :: rest) hskip hbne
  have hext : parseJson fuel (b ++ '}' :: rest) = .ok (j, '}' :: rest) :=
    parseJson_extend (jfuel b) fuel hfuel b j ('}' :: rest) hb (stopTok_of_head _ (by decide))
  have htake : (b ++ '}' :: rest).take
      ((b ++ '}' :: rest).length - ('}' :: rest).length) = b := by
    rw [List.length_append, Nat.add_sub_cancel]
    exact List.take_left _ _
  rw [show serStr k ++ ':' :: (b ++ '}' :: rest)
      = '"' :: (serStrBody k ++ '"' :: (':' :: (b ++ '}' :: rest))) by
    simp [serStr]]
  rw [parseRepRest, skipWs_cons_not _ (by decide)]
  split
  · rename_i s1 heq1
    injection heq1 with h1 h2
    subst h2
    rw [parseStrBody_ser k (':' :: (b ++ '}' :: rest))]
    try dsimp only
    rw [skipWs_cons_not _ (by decide)]
    split
    · rename_i s3 heq3
      injection heq3 with h3 h4
      subst h4
      rw [hskipb, hext]
      try dsimp only
      rw [skipWs_cons_not _ (by decide)]
      split
      · rename_i s5 heq5
        exfalso
        injection heq5 with hh h6
        exact absurd hh (by decide)
      · rename_i s5 heq5
        injection heq5 with h5 h6
        subst h6
        rw [htake]
      · rename_i hcon1 hcon2
        exact (hcon2 rest rfl).elim
    · rename_i hcon
      exact (hcon (b ++ '}' :: rest) rfl).elim
  · rename_i hcon
    exact (hcon (serStrBody k ++ '"' :: (':' :: (b ++ '}' :: rest))) rfl).elim

/-- Parsing inverts emission for every report satisfying the data-model
invariants. -/
theorem parse_marshalReport (r : NelReport) (hwf : ReportWF r) :
    parseReport (jfuel (marshalReport r)) (marshalReport r) = .ok (r, []) := by
  obtain ⟨hanns, hinv⟩ := hwf
  by_cases hNel : r.reportType = networkError
  · rw [if_pos hNel] at hinv
    have hM : marshalReport r
        = '{' :: (serObjEntries [(['a', 'g', 'e'], numOfInt r.age),
            (['t', 'y', 'p', 'e'], .str r.reportType),
            (['u', 'r', 'l'], .str r.url),
            (['b', 'o', 'd', 'y'], marshalNelBody r)] ++ '}' :: ([] : Chars)) := by
      rw [marshalReport, if_pos hNel]
      simp [serialize]
    have hwfE : JsonWFEntries [(['a', 'g', 'e'], numOfInt r.age),
        (['t', 'y', 'p', 'e'], .str r.reportType),
        (['u', 'r', 'l'], .str r.url),
        (['b', 'o', 'd', 'y'], marshalNelBody r)] :=
      ⟨numOfInt_wf _, trivial, trivial, marshalNelBody_wf r, trivial⟩
    have hsz : jsizeEntries [(['a', 'g', 'e'], numOfInt r.age),
        (['t', 'y', 'p', 'e'], .str r.reportType),
        (['u', 'r', 'l'], .str r.url),
        (['b', 'o', 'd', 'y'], marshalNelBody r)] < jfuel (marshalReport r) := by
      have hb := jsizeEntries_le_ser _ hwfE
      rw [hM]
      unfold jfuel
      simp only [List.length_cons, List.length_append]
      omega
    rw [hM] at hsz ⊢
    rw [parseReport_obj _ _ _ _ hwfE hsz]
    rw [show (List.map (fun e => (e.1, e.2, serialize e.2))
        [(['a', 'g', 'e'], numOfInt r.age),
         (['t', 'y', 'p', 'e'], Json.str r.reportType),
         (['u', 'r', 'l'], Json.str r.url),
         (['b', 'o', 'd', 'y'], marshalNelBody r)])
      = [(['a', 'g', 'e'], numOfInt r.age, serialize (numOfInt r.age)),
         (['t', 'y', 'p', 'e'], .str r.reportType, serialize (.str r.reportType)),
         (['u', 'r', 'l'], .str r.url, serialize (.str r.url)),
         (['b', 'o', 'd', 'y'], marshalNelBody r, serialize (marshalNelBody r))] from rfl]
    rw [reportFromEntries_nel r hNel hinv hanns]
    rfl
  · rw [if_neg hNel] at hinv
    obtain ⟨h1, h2, h3, h4, h5, h6, h7, h8, h9, hskipb, hfull⟩ := hinv
    obtain ⟨j, hbj⟩ : ∃ j, parseJson (jfuel r.rawBody) r.rawBody = .ok (j, []) := by
      unfold parsesFully at hfull
      cases hpj : parseJson (jfuel r.rawBody) r.rawBody with
      | error e =>
        rw [hpj] at hfull
        simp at hfull
      | ok p =>
        obtain ⟨jv, rest⟩ := p
        rw [hpj] at hfull
        have hrest : rest = [] := by
          cases rest with
          | nil => rfl
          | cons c t => simp at hfull
        exact ⟨jv, by rw [hrest]⟩
    have hM : marshalReport r
        = '{' :: (serStr ['a', 'g', 'e'] ++ ':' :: (serialize (numOfInt r.age)
          ++ ',' :: (serStr ['t', 'y', 'p', 'e'] ++ ':' :: (serialize (.str r.reportType)
          ++ ',' :: (serStr ['u', 'r', 'l'] ++ ':' :: (serialize (.str r.url)
          ++ ',' :: (serStr ['b', 'o', 'd', 'y']
            ++ ':' :: (r.rawBody ++ '}' :: ([] : Chars))))))))) := by
      rw [marshalReport, if_neg hNel]
      simp
    have hfuelb : jfuel r.rawBody + 4 ≤ jfuel (marshalReport r) := by
      have hlen : r.rawBody.length + 2 ≤ (marshalReport r).length := by
        rw [hM]
        simp only [List.length_cons, List.length_append]
        omega
      unfold jfuel
      omega
    obtain ⟨f4, hF4, hf4⟩ : ∃ f4, jfuel (marshalReport r) = f4 + 4 ∧ jfuel r.rawBody ≤ f4 :=
      ⟨jfuel (marshalReport r) - 4, by omega, by omega⟩
    rw [hF4, hM]
    rw [parseReport.eq_def]
    rw [skipWs_cons_not _ (by decide)]
    split
    · rename_i s1 heq1
      injection heq1 with hh ht
      subst ht
      split
      · rename_i s2 heq2
        exfalso
        rw [skipWs_serStr_append, serStr_append_shape] at heq2
        injection heq2 with hh2
        exact absurd hh2 (by decide)
      · rename_i hcon0
        rw [skipWs_serStr_append]
        rw [show (f4 + 4 : Nat) = f4 + 3 + 1 by omega]
        rw [parseRepRest_step (f4 + 3) _ (numOfInt r.age) _ (numOfInt_wf _)
          (by have h0 : jsize (numOfInt r.age) = 1 := rfl; omega)]
        rw [show (f4 + 3 : Nat) = f4 + 2 + 1 by omega]
        rw [parseRepRest_step (f4 + 2) _ (.str r.reportType) _ trivial
          (by have h0 : jsize (.str r.reportType) = 1 := rfl; omega)]
        rw [show (f4 + 2 : Nat) = f4 + 1 + 1 by omega]
        rw [parseRepRest_step (f4 + 1) _ (.str r.url) _ trivial
          (by
            have h0 : jsize (.str r.url) = 1 := rfl
            have hjf : jfuel r.rawBody = 2 * r.rawBody.length + 4 := rfl
            omega)]
        rw [parseRepRest_last_raw f4 _ r.rawBody j [] hbj hskipb hf4]
        try dsimp only
        rw [reportFromEntries_other r.age r.reportType r.url r.rawBody j hNel _ _ _]
        try dsimp only
        obtain ⟨age, rt, url, ref, sf, sip, pr, me, sc, et, ph, ty, rb, an⟩ := r
        simp only at h1 h2 h3 h4 h5 h6 h7 h8 h9 hanns
        subst h1 h2 h3 h4 h5 h6 h7 h8 h9 hanns
        rfl
    · rename_i x hcon
      exact (hcon _ rfl).elim

/-! ### Raw codec roundtrips -/


theorem annValOfJson_annValToJson (v : AnnVal) : annValOfJson (annValToJson v) = .ok v := by
  cases v with
  | bytes b => simp [annValToJson, annValOfJson]
  | strv s => simp [annValToJson, annValOfJson]
  | intv n => simp [annValToJson, annValOfJson, intOfNum_numOfInt]

theorem annsOfJson_annsToJson (m : AnnMap) : annsOfJson (annsToJson m) = .ok m := by
  rw [annsToJson, annsOfJson]
  induction m with
  | nil => rfl
  | cons e t ih =>
    rw [List.map_cons, annsOfJson.annsEntriesOf, annValOfJson_annValToJson, ih]

theorem rawDecodeReport_rawEncodeReport (r : NelReport) :
    rawDecodeReport (rawEncodeReport r) = .ok r := by
  rw [rawEncodeReport, rawDecodeReport]
  simp [jlookup, Option.elim, jsonStr, intOfNum_numOfInt, decOfNum_numOfDec,
    annsOfJson_annsToJson]
  rfl

theorem decodeRawReports_encodeRawReports (rs : List NelReport) :
    decodeRawReports (encodeRawReports rs) = .ok rs := by
  rw [encodeRawReports, decodeRawReports]
  induction rs with
  | nil => rfl
  | cons r t ih =>
    rw [List.map_cons, decodeRawReports.decodeRawList, rawDecodeReport_rawEncodeReport, ih]

theorem rawDecodeBatch_rawEncodeBatch (b : ReportBatch) :
    rawDecodeBatch (rawEncodeBatch b) = .ok b := by
  rw [rawEncodeBatch, rawDecodeBatch]
  simp [jlookup, Option.elim, jsonStr, intOfNum_numOfInt,
    annsOfJson_annsToJson, decodeRawReports_encodeRawReports]
  rfl

/-! ### Annotation store lemmas -/


theorem getAnn_setAnn_self (m : AnnMap) (name : Chars) (v : AnnVal) :
    getAnn (setAnn m name v) name = some v := by
  induction m with
  | nil => simp [setAnn, getAnn]
  | cons e t ih =>
    rw [setAnn]
    split
    · rename_i h
      rw [getAnn, if_pos h]
    · rename_i h
      rw [getAnn, if_neg h]
      exact ih

theorem getAnn_setAnn_other (m : AnnMap) (name k : Chars) (v : AnnVal) (hk : ¬ k = name) :
    getAnn (setAnn m name v) k = getAnn m k := by
  induction m with
  | nil =>
    rw [setAnn, getAnn, getAnn]
    rw [if_neg (fun h : name = k => hk h.symm)]
    rfl
  | cons e t ih =>
    rw [setAnn]
    split
    · rename_i h
      rw [getAnn, getAnn]
      split
      · rename_i h2
        exact absurd (h2.symm.trans h) hk
      · rfl
    · rw [getAnn, getAnn]
      split
      · rfl
      · exact ih

/-! ### Fold-to-flatten -/


theorem foldl_append_eq_flatten_map {α : Type} (f : α → Chars) (l : List α) (acc : Chars) :
    l.foldl (fun acc r => acc ++ f r) acc = acc ++ (l.map f).flatten := by
  induction l generalizing acc with
  | nil => simp
  | cons x t ih =>
    rw [List.foldl_cons, ih, List.map_cons, List.flatten_cons]
    simp

/-! ### Header lemmas -/


theorem getHeader_setHeader_self (hs : List (Chars × Chars)) (k v : Chars) :
    getHeader (setHeader hs k v) k = some v := by
  induction hs with
  | nil => simp [setHeader, getHeader]
  | cons e t ih =>
    rw [setHeader]
    split
    · rename_i h
      rw [getHeader, if_pos h]
    · rename_i h
      rw [getHeader, if_neg h]
      exact ih

theorem getHeader_setHeader_other (hs : List (Chars × Chars)) (k k2 v : Chars)
    (hk : ¬ k2 = k) : getHeader (setHeader hs k v) k2 = getHeader hs k2 := by
  induction hs with
  | nil =>
    rw [setHeader, getHeader, getHeader]
    rw [if_neg (fun h : k = k2 => hk h.symm)]
    rfl
  | cons e t ih =>
    rw [setHeader]
    split
    · rename_i h
      rw [getHeader, getHeader]
      split
      · rename_i h2
        exact absurd (h2.symm.trans h) hk
      · rfl
    · rw [getHeader, getHeader]
      split
      · rfl
      · exact ih

/-! ### Loader lemmas -/


theorem loadLoop_procs (reg : LoaderReg) :
    ∀ (entries : List TomlEntry) (procs : List Nat) (idx : Nat),
      (loadLoop reg procs idx entries).2 = procs ++ goodPrefixProcs reg entries := by
  intro entries
  induction entries with
  | nil =>
    intro procs idx
    simp [loadLoop, goodPrefixProcs]
  | cons e rest ih =>
    intro procs idx
    cases e with
    | notTable => simp [loadLoop, goodPrefixProcs]
    | table typ =>
      rw [loadLoop, goodPrefixProcs]
      split
      · simp
      · rename_i hty
        match hreg : lookupReg reg typ with
        | none => simp [hreg]
        | some (.error e) => simp [hreg]
        | some (.ok p) =>
          simp only [hreg]
          rw [ih (procs ++ [p]) (idx + 1)]
          simp

/-! ### Hot-swap machine lemmas -/


theorem hsInv_hc (old new : Nat) (s : HSState) (hinv : HSInv old new s) :
    s.hc = some old ∨ s.hc = some new := by
  obtain ⟨h1, h2, -, -⟩ := hinv
  cases hpc : s.swapPc with
  | idle => exact .inl (h1 (.inl hpc))
  | locked => exact .inl (h1 (.inr (.inl hpc)))
  | closedStep => exact .inl (h1 (.inr (.inr hpc)))
  | installed => exact .inr (h2 (.inl hpc)).1
  | finished => exact .inr (h2 (.inr hpc)).1

theorem hsInv_init (old new n : Nat) : HSInv old new (hsInit old n) := by
  refine ⟨fun _ => rfl, fun h => ?_, fun h => ?_, fun p hp h hd => ?_⟩
  · rcases h with h | h <;> exact absurd h (by simp [hsInit])
  · exact absurd h (by simp [hsInit])
  · rw [hsInit] at hp
    have := List.eq_of_mem_replicate hp
    subst this
    exact absurd hd (by simp [dispatchedTo])

theorem hsInv_step (old new : Nat) (s s2 : HSState) (a : HSAct)
    (hinv : HSInv old new s) (hstep : hsStep new s a = some s2) : HSInv old new s2 := by
  obtain ⟨h1, h2, h3, h4⟩ := hinv
  cases a with
  | reqAcquire i =>
    rw [hsStep] at hstep
    split at hstep
    · rename_i h hget hw hhc
      injection hstep with hs2
      subst hs2
      refine ⟨h1, h2, h3, fun p hp hh hd => ?_⟩
      rcases List.mem_or_eq_of_mem_set hp with hmem | hmem
      · exact h4 p hmem hh hd
      · subst hmem
        rw [dispatchedTo] at hd
        injection hd with hd
        subst hd
        rcases hsInv_hc old new s ⟨h1, h2, h3, h4⟩ with hc | hc <;>
          rw [hhc] at hc <;> injection hc with hc
        · exact .inl hc
        · exact .inr hc
    · exact absurd hstep (by simp)
  | reqRelease i =>
    rw [hsStep] at hstep
    split at hstep
    · rename_i h hget
      injection hstep with hs2
      subst hs2
      refine ⟨h1, h2, h3, fun p hp hh hd => ?_⟩
      rcases List.mem_or_eq_of_mem_set hp with hmem | hmem
      · exact h4 p hmem hh hd
      · subst hmem
        rw [dispatchedTo] at hd
        injection hd with hd
        subst hd
        have hmem2 : ReqPhase.reading h ∈ s.reqs := List.getElem?_mem hget
        exact h4 _ hmem2 h rfl
    · exact absurd hstep (by simp)
  | swapLock =>
    rw [hsStep] at hstep
    split at hstep
    · rename_i hpc hr hw
      injection hstep with hs2
      subst hs2
      refine ⟨fun _ => h1 (.inl hpc), fun h => ?_, fun h => ?_, h4⟩
      · rcases h with h | h <;> exact absurd h (by simp)
      · exact absurd h (by simp)
    · exact absurd hstep (by simp)
  | swapClose =>
    rw [hsStep] at hstep
    split at hstep
    · rename_i hpc
      injection hstep with hs2
      subst hs2
      refine ⟨fun _ => h1 (.inr (.inl hpc)), fun h => ?_, fun _ => ?_, h4⟩
      · rcases h with h | h <;> exact absurd h (by simp)
      · rw [h1 (.inr (.inl hpc))]
        rfl
    · exact absurd hstep (by simp)
  | swapInstall =>
    rw [hsStep] at hstep
    split at hstep
    · rename_i hpc
      injection hstep with hs2
      subst hs2
      refine ⟨fun h => ?_, fun _ => ⟨rfl, h3 hpc⟩, fun h => ?_, h4⟩
      · rcases h with h | h | h <;> exact absurd h (by simp)
      · exact absurd h (by simp)
    · exact absurd hstep (by simp)
  | swapUnlock =>
    rw [hsStep] at hstep
    split at hstep
    · rename_i hpc
      injection hstep with hs2
      subst hs2
      refine ⟨fun h => ?_, fun _ => h2 (.inl hpc), fun h => ?_, h4⟩
      · rcases h with h | h | h <;> exact absurd h (by simp)
      · exact absurd h (by simp)
    · exact absurd hstep (by simp)

theorem hsInv_run (old new : Nat) :
    ∀ (tr : List HSAct) (s s2 : HSState), HSInv old new s → hsRun new s tr = some s2 →
      HSInv old new s2 := by
  intro tr
  induction tr with
  | nil =>
    intro s s2 hinv hrun
    rw [hsRun] at hrun
    injection hrun with h
    exact h ▸ hinv
  | cons a tr ih =>
    intro s s2 hinv hrun
    rw [hsRun] at hrun
    split at hrun
    · exact absurd hrun (by simp)
    · rename_i s3 hstep
      exact ih s3 s2 (hsInv_step old new s s3 a hinv hstep) hrun

theorem hsStep_pinned (new : Nat) (s s2 : HSState) (a : HSAct) (i : Nat) (h : Nat)
    (hr : s.reqs[i]? = some (.reading h)) (hstep : hsStep new s a = some s2) :
    s2.reqs[i]? = some (.reading h) ∨ s2.reqs[i]? = some (.done h) := by
  cases a with
  | reqAcquire j =>
    rw [hsStep] at hstep
    split at hstep
    · rename_i h2 hget hw hhc
      injection hstep with hs2
      subst hs2
      by_cases hij : j = i
      · subst hij
        rw [hr] at hget
        injection hget with hget
        exact absurd hget (by simp)
      · exact .inl ((List.getElem?_set_ne hij).trans hr)
    · exact absurd hstep (by simp)
  | reqRelease j =>
    rw [hsStep] at hstep
    split at hstep
    · rename_i h2 hget
      injection hstep with hs2
      subst hs2
      by_cases hij : j = i
      · subst hij
        rw [hr] at hget
        injection hget with hget
        injection hget with hget
        refine .inr ?_
        rw [List.getElem?_set_self', hr, hget]
        rfl
      · exact .inl ((List.getElem?_set_ne hij).trans hr)
    · exact absurd hstep (by simp)
  | swapLock =>
    rw [hsStep] at hstep
    split at hstep
    · injection hstep with hs2
      subst hs2
      exact .inl hr
    · exact absurd hstep (by simp)
  | swapClose =>
    rw [hsStep] at hstep
    split at hstep
    · injection hstep with hs2
      subst hs2
      exact .inl hr
    · exact absurd hstep (by simp)
  | swapInstall =>
    rw [hsStep] at hstep
    split at hstep
    · injection hstep with hs2
      subst hs2
      exact .inl hr
    · exact absurd hstep (by simp)
  | swapUnlock =>
    rw [hsStep] at hstep
    split at hstep
    · injection hstep with hs2
      subst hs2
      exact .inl hr
    · exact absurd hstep (by simp)

theorem hsStep_done_stable (new : Nat) (s s2 : HSState) (a : HSAct) (i : Nat) (h : Nat)
    (hr : s.reqs[i]? = some (.done h)) (hstep : hsStep new s a = some s2) :
    s2.reqs[i]? = some (.done h) := by
  cases a with
  | reqAcquire j =>
    rw [hsStep] at hstep
    split at hstep
    · rename_i h2 hget hw hhc
      injection hstep with hs2
      subst hs2
      by_cases hij : j = i
      · subst hij
        rw [hr] at hget
        injection hget with hget
        exact absurd hget (by simp)
      · exact (List.getElem?_set_ne hij).trans hr
    · exact absurd hstep (by simp)
  | reqRelease j =>
    rw [hsStep] at hstep
    split at hstep
    · rename_i h2 hget
      injection hstep with hs2
      subst hs2
      by_cases hij : j = i
      · subst hij
        rw [hr] at hget
        injection hget with hget
        exact absurd hget (by simp)
      · exact (List.getElem?_set_ne hij).trans hr
    · exact absurd hstep (by simp)
  | swapLock =>
    rw [hsStep] at hstep
    split at hstep
    · injection hstep with hs2
      subst hs2
      exact hr
    · exact absurd hstep (by simp)
  | swapClose =>
    rw [hsStep] at hstep
    split at hstep
    · injection hstep with hs2
      subst hs2
      exact hr
    · exact absurd hstep (by simp)
  | swapInstall =>
    rw [hsStep] at hstep
    split at hstep
    · injection hstep with hs2
      subst hs2
      exact hr
    · exact absurd hstep (by simp)
  | swapUnlock =>
    rw [hsStep] at hstep
    split at hstep
    · injection hstep with hs2
      subst hs2
      exact hr
    · exact absurd hstep (by simp)

theorem hsRun_done_stable (new : Nat) :
    ∀ (tr : List HSAct) (s s2 : HSState) (i : Nat) (h : Nat),
      s.reqs[i]? = some (.done h) → hsRun new s tr = some s2 →
      s2.reqs[i]? = some (.done h) := by
  intro tr
  induction tr with
  | nil =>
    intro s s2 i h hr hrun
    rw [hsRun] at hrun
    injection hrun with hrun
    exact hrun ▸ hr
  | cons a tr ih =>
    intro s s2 i h hr hrun
    rw [hsRun] at hrun
    split at hrun
    · exact absurd hrun (by simp)
    · rename_i s3 hstep
      exact ih s3 s2 i h (hsStep_done_stable new s s3 a i h hr hstep) hrun

theorem hsRun_pinned (new : Nat) :
    ∀ (tr : List HSAct) (s s2 : HSState) (i : Nat) (h : Nat),
      s.reqs[i]? = some (.reading h) → hsRun new s tr = some s2 →
      s2.reqs[i]? = some (.reading h) ∨ s2.reqs[i]? = some (.done h) := by
  intro tr
  induction tr with
  | nil =>
    intro s s2 i h hr hrun
    rw [hsRun] at hrun
    injection hrun with hrun
    exact .inl (hrun ▸ hr)
  | cons a tr ih =>
    intro s s2 i h hr hrun
    rw [hsRun] at hrun
    split at hrun
    · exact absurd hrun (by simp)
    · rename_i s3 hstep
      rcases hsStep_pinned new s s3 a i h hr hstep with h3 | h3
      · exact ih s3 s2 i h h3 hrun
      · exact .inr (hsRun_done_stable new tr s3 s2 i h h3 hrun)

theorem countDispTo_cons (h : Nat) (p : ReqPhase) (t : List ReqPhase) :
    countDispTo h (p :: t)
      = (if dispatchedTo p = some h then 1 else 0) + countDispTo h t := by
  rw [countDispTo, countDispTo, List.filter_cons]
  split
  · rename_i hp
    rw [List.length_cons, if_pos (by simpa using hp)]
    omega
  · rename_i hp
    rw [if_neg (by simpa using hp)]
    omega

theorem countDisp_cons (p : ReqPhase) (t : List ReqPhase) :
    countDisp (p :: t)
      = (if dispatchedTo p = none then 0 else 1) + countDisp t := by
  rw [countDisp, countDisp, List.filter_cons]
  split
  · rename_i hp
    rw [List.length_cons, if_neg (by simpa using hp)]
    omega
  · rename_i hp
    have : dispatchedTo p = none := by simpa using hp
    rw [if_pos this]
    omega

theorem disp_partition (old new : Nat) (hne : ¬ old = new) :
    ∀ reqs : List ReqPhase,
      (∀ p ∈ reqs, ∀ h, dispatchedTo p = some h → h = old ∨ h = new) →
      countDispTo old reqs + countDispTo new reqs = countDisp reqs := by
  intro reqs
  induction reqs with
  | nil =>
    intro _
    rfl
  | cons p t ih =>
    intro hall
    have ht := ih (fun q hq => hall q (List.mem_cons_of_mem p hq))
    rw [countDispTo_cons, countDispTo_cons, countDisp_cons]
    cases hd : dispatchedTo p with
    | none =>
      rw [if_neg (by simp [hd]), if_neg (by simp [hd]), if_pos rfl]
      omega
    | some h =>
      rcases hall p (List.mem_cons_self p t) h hd with hh | hh
      · subst hh
        rw [if_pos rfl, if_neg (by simpa [hd] using fun e => hne e), if_neg (by simp [hd])]
        omega
      · subst hh
        rw [if_neg (by simpa [hd] using fun e => hne e.symm), if_pos rfl, if_neg (by simp [hd])]
        omega

/-! ### Decode dichotomy and body-byte capture -/


theorem parseRepRest_raw_infix :
    ∀ (fuel : Nat) (s : Chars) (entries : List RepEntry) (rest : Chars),
      parseRepRest fuel s = .ok (entries, rest) →
      ∀ e ∈ entries, e.2.2 <:+: s := by
  intro fuel
  induction fuel with
  | zero =>
    intro s entries rest h
    rw [parseRepRest] at h
    simp at h
  | succ fuel ih =>
    intro s entries rest h
    rw [parseRepRest] at h
    split at h
    · rename_i s1 heq1
      split at h
      · simp at h
      · rename_i k s2 heq2
        split at h
        · rename_i s3 heq3
          split at h
          · simp at h
          · rename_i v s4 heq4
            have hs3s : skipWs s3 <:+ s :=
              (skipWs_suffix s3).trans ((skipWs_cons_suffix heq3).trans
                ((parseStrBody_suffix s1 k s2 heq2).trans (skipWs_cons_suffix heq1)))
            split at h
            · rename_i s5 heq5
              split at h
              · simp at h
              · rename_i l s6 heq6
                injection h with h
                injection h with hent hrest
                subst hent
                intro e he
                rcases List.mem_cons.mp he with he | he
                · subst he
                  exact ((List.take_prefix _ _).isInfix).trans hs3s.isInfix
                · have hs5 : s5 <:+ s :=
                    (skipWs_cons_suffix heq5).trans
                      ((parseJson_suffix fuel (skipWs s3) v s4 heq4).trans hs3s)
                  exact (ih s5 l s6 heq6 e he).trans hs5.isInfix
            · rename_i s5 heq5
              injection h with h
              injection h with hent hrest
              subst hent
              intro e he
              rcases List.mem_cons.mp he with he | he
              · subst he
                exact ((List.take_prefix _ _).isInfix).trans hs3s.isInfix
              · exact absurd he (List.not_mem_nil e)
            · simp at h
        · simp at h
    · simp at h

theorem foldNelBody_frame :
    ∀ (l : List (Chars × Json)) (acc res : NelReport),
      foldNelBody acc l = .ok res →
      res.reportType = acc.reportType ∧ res.rawBody = acc.rawBody := by
  intro l
  induction l with
  | nil =>
    intro acc res h
    rw [foldNelBody] at h
    injection h with h
    exact ⟨h ▸ rfl, h ▸ rfl⟩
  | cons e rest ih =>
    intro acc res h
    rw [foldNelBody] at h
    repeat' split at h
    all_goals first
      | simp at h
      | (have h2 := ih _ _ h
         exact h2)

theorem foldRepEntries_body :
    ∀ (l : List RepEntry) (acc res : RawNelReport),
      foldRepEntries acc l = .ok res →
      res.body = acc.body ∨ ∃ e ∈ l, res.body = some (e.2.1, e.2.2) := by
  intro l
  induction l with
  | nil =>
    intro acc res h
    rw [foldRepEntries] at h
    injection h with h
    exact .inl (h ▸ rfl)
  | cons e rest ih =>
    intro acc res h
    obtain ⟨k, v, rb⟩ := e
    rw [foldRepEntries] at h
    split at h
    · split at h
      · simp at h
      · rcases ih _ _ h with h2 | ⟨e2, he2, h3⟩
        · exact .inl h2
        · exact .inr ⟨e2, List.mem_cons_of_mem _ he2, h3⟩
    · split at h
      · split at h
        · simp at h
        · rcases ih _ _ h with h2 | ⟨e2, he2, h3⟩
          · exact .inl h2
          · exact .inr ⟨e2, List.mem_cons_of_mem _ he2, h3⟩
      · split at h
        · split at h
          · simp at h
          · rcases ih _ _ h with h2 | ⟨e2, he2, h3⟩
            · exact .inl h2
            · exact .inr ⟨e2, List.mem_cons_of_mem _ he2, h3⟩
        · split at h
          · rcases ih _ _ h with h2 | ⟨e2, he2, h3⟩
            · exact .inr ⟨(k, v, rb), List.mem_cons_self _ _, h2⟩
            · exact .inr ⟨e2, List.mem_cons_of_mem _ he2, h3⟩
          · rcases ih _ _ h with h2 | ⟨e2, he2, h3⟩
            · exact .inl h2
            · exact .inr ⟨e2, List.mem_cons_of_mem _ he2, h3⟩

theorem reportFromEntries_cases (entries : List RepEntry) (r : NelReport)
    (h : reportFromEntries entries = .ok r) :
    (r.reportType = networkError → r.rawBody = [])
    ∧ (¬ r.reportType = networkError →
        r.referrer = [] ∧ r.samplingFraction = (0, 0) ∧ r.serverIP = []
        ∧ r.protocol = [] ∧ r.method = [] ∧ r.statusCode = 0 ∧ r.elapsedTime = 0
        ∧ r.phase = [] ∧ r.typ = [] ∧ r.anns = []
        ∧ (r.rawBody = [] ∨ ∃ e ∈ entries, ∃ v, e.2 = (v, r.rawBody))) := by
  rw [reportFromEntries] at h
  split at h
  · simp at h
  · rename_i raw heqfold
    split at h
    · rename_i hnel
      split at h
      · simp at h
      · rename_i bodyV braw heqbody
        split at h
        · rename_i bentries
          obtain ⟨hty, hrb⟩ := foldNelBody_frame bentries _ r h
          refine ⟨fun _ => hrb, fun hne => ?_⟩
          exact absurd (hty.trans hnel) hne
        · simp at h
    · rename_i hnel
      rcases hb : raw.body with - | ⟨v, braw⟩
      · rw [hb] at h
        injection h with h
        subst h
        refine ⟨fun hn => absurd hn hnel, fun _ => ?_⟩
        exact ⟨rfl, rfl, rfl, rfl, rfl, rfl, rfl, rfl, rfl, rfl, .inl rfl⟩
      · rw [hb] at h
        injection h with h
        subst h
        refine ⟨fun hn => absurd hn hnel, fun _ => ?_⟩
        refine ⟨rfl, rfl, rfl, rfl, rfl, rfl, rfl, rfl, rfl, rfl, ?_⟩
        rcases foldRepEntries_body entries _ raw heqfold with h2 | ⟨e2, he2, h3⟩
        · rw [hb] at h2
          simp at h2
        · rw [hb] at h3
          obtain ⟨k2, v2, rb2⟩ := e2
          injection h3 with h3
          injection h3 with h3a h3b
          refine .inr ⟨(k2, v2, rb2), he2, v2, ?_⟩
          rw [h3b]

theorem parseReport_rawBody (fuel : Nat) (s : Chars) (r : NelReport) (rest : Chars)
    (h : parseReport fuel s = .ok (r, rest)) :
    (r.reportType = networkError → r.rawBody = [])
    ∧ (¬ r.reportType = networkError →
        r.referrer = [] ∧ r.samplingFraction = (0, 0) ∧ r.serverIP = []
        ∧ r.protocol = [] ∧ r.method = [] ∧ r.statusCode = 0 ∧ r.elapsedTime = 0
        ∧ r.phase = [] ∧ r.typ = []
        ∧ ∃ pre post, pre ++ r.rawBody ++ post = s) := by
  rw [parseReport.eq_def] at h
  split at h
  · rename_i s1 heq1
    split at h
    · rename_i s2 heq2
      split at h
      · simp at h
      · rename_i r2 heqfe
        injection h with h
        injection h with hr hrest
        subst hr
        obtain ⟨hA, hB⟩ := reportFromEntries_cases _ _ heqfe
        refine ⟨hA, fun hne => ?_⟩
        obtain ⟨z1, z2, z3, z4, z5, z6, z7, z8, z9, -, hrb⟩ := hB hne
        rcases hrb with hrb | ⟨e, he, -⟩
        · exact ⟨z1, z2, z3, z4, z5, z6, z7, z8, z9, [], s, by rw [hrb]; rfl⟩
        · exact absurd he (List.not_mem_nil e)
    · split at h
      · simp at h
      · rename_i entries s3 heqrest
        split at h
        · simp at h
        · rename_i r2 heqfe
          injection h with h
          injection h with hr hrest
          subst hr
          obtain ⟨hA, hB⟩ := reportFromEntries_cases _ _ heqfe
          refine ⟨hA, fun hne => ?_⟩
          obtain ⟨z1, z2, z3, z4, z5, z6, z7, z8, z9, -, hrb⟩ := hB hne
          rcases hrb with hrb | ⟨e, he, v, hev⟩
          · exact ⟨z1, z2, z3, z4, z5, z6, z7, z8, z9, [], s, by rw [hrb]; rfl⟩
          · have hinf : e.2.2 <:+: s := by
              have h1 := parseRepRest_raw_infix fuel (skipWs s1) entries s3 heqrest e he
              exact h1.trans ((skipWs_suffix s1).trans (skipWs_cons_suffix heq1)).isInfix
            have hrb2 : e.2.2 = r2.rawBody := by
              rw [hev]
            rw [hrb2] at hinf
            obtain ⟨pre, post, hps⟩ := hinf
            exact ⟨z1, z2, z3, z4, z5, z6, z7, z8, z9, pre, post, hps⟩
  · simp at h

/-! ## The claims -/


/-- C3: the spec-aware codec round-trips on every report satisfying the
data-model invariants, and the raw test codec is its own inverse, for report
lists and for whole batches with their annotations.  (The unrestricted
round-trip claimed by the spec fails; see the counterexample.) -/
theorem claim_C3 :
    (∀ r : NelReport, ReportWF r →
      parseReport (jfuel (marshalReport r)) (marshalReport r) = .ok (r, []))
    ∧ (∀ rs : List NelReport, decodeRawReports (encodeRawReports rs) = .ok rs)
    ∧ (∀ b : ReportBatch, rawDecodeBatch (rawEncodeBatch b) = .ok b) :=
  ⟨parse_marshalReport, decodeRawReports_encodeRawReports, rawDecodeBatch_rawEncodeBatch⟩

/-- C3 counterexample: a non-NEL report with a nonzero `StatusCode` emits to
JSON that parses back with `StatusCode = 0`, even though the emission parses
fine; and a decoder-reachable non-NEL report with no `body` member (empty
`rawBody`) emits invalid JSON that does not parse back at all.  So
`parse(emit(r)) = r` is false for both, and the typed-field and body-bytes
restrictions of `ReportWF` are each necessary. -/
theorem claim_C3_counterexample :
    (¬ parseReport (jfuel (marshalReport badRep)) (marshalReport badRep) = .ok (badRep, [])
      ∧ (parseReport (jfuel (marshalReport badRep)) (marshalReport badRep)).isOk = true)
    ∧ (parseReport (jfuel noBodySrc) noBodySrc = .ok (noBodyRep, [])
      ∧ ¬ parseReport (jfuel (marshalReport noBodyRep)) (marshalReport noBodyRep)
          = .ok (noBodyRep, [])) :=
  ⟨⟨by decide, by decide⟩, ⟨by decide, by decide⟩⟩

/-- C3 witness: the round-trip at a concrete non-NEL report whose captured
body bytes contain internal whitespace the emitter would not produce. -/
theorem claim_C3_witness :
    parseReport (jfuel (marshalReport otherTestReport)) (marshalReport otherTestReport)
      = .ok (otherTestReport, []) :=
  claim_C3.1 otherTestReport ⟨rfl, by
    rw [if_neg (show ¬otherTestReport.reportType = networkError by decide)]
    exact ⟨rfl, rfl, rfl, rfl, rfl, rfl, rfl, rfl, rfl, by decide, by decide⟩⟩

/-- C6: the NEL filter is idempotent, empties a batch of only non-NEL
reports, and keeps surviving reports in their original relative order. -/
theorem claim_C6 (b : ReportBatch) :
    keepNelReports (keepNelReports b) = keepNelReports b
    ∧ ((∀ r ∈ b.reports, ¬ r.reportType = networkError) → (keepNelReports b).reports = [])
    ∧ (keepNelReports b).reports.Sublist b.reports := by
  refine ⟨?_, fun h => ?_, ?_⟩
  · rw [keepNelReports, keepNelReports]
    dsimp only
    rw [List.filter_filter]
    simp
  · rw [keepNelReports]
    dsimp only
    rw [List.filter_eq_nil_iff]
    intro r hr
    simpa using h r hr
  · exact List.filter_sublist _

/-- C6 witness: a concrete all-non-NEL batch filters to empty. -/
theorem claim_C6_witness :
    (keepNelReports { reports := [otherTestReport] }).reports = [] :=
  (claim_C6 { reports := [otherTestReport] }).2.1 (by decide)

/-- C7: the CLF dumper emits exactly one `clfLine` per report of the batch,
in order, and on the spec's epoch scenario emits exactly the specified
line. -/
theorem claim_C7 :
    (∀ b : ReportBatch,
      dumpReportsAsCLF b = (b.reports.map (clfLine b.clientIP (clfTimeStr b.time))).flatten)
    ∧ dumpReportsAsCLF epochBatch
        = ("192.0.2.1 - - [01/Jan/1970:00:00:00.000 +0000] \"GET https://example.com/about/\" 200 -\n").toList := by
  constructor
  · intro b
    rw [dumpReportsAsCLF, foldl_append_eq_flatten_map]
    rfl
  · decide

/-- C10: writing through the annotation writer fails (0 bytes, an error,
store untouched) when the named annotation is not a byte slice, and appends
`p` to the existing bytes (or starts fresh) returning `(len p, nil)`
otherwise, leaving every other annotation unchanged. -/
theorem claim_C10 (m : AnnMap) (name p : Chars) :
    (∀ s0, getAnn m name = some (.strv s0) →
      annWrite m name p
        = ((0, some ("Annotation named ".toList ++ name
            ++ " already exists and is not a []byte".toList)), m))
    ∧ (∀ n, getAnn m name = some (.intv n) →
      annWrite m name p
        = ((0, some ("Annotation named ".toList ++ name
            ++ " already exists and is not a []byte".toList)), m))
    ∧ (getAnn m name = none →
        (annWrite m name p).1 = (p.length, none)
        ∧ getAnn (annWrite m name p).2 name = some (.bytes p)
        ∧ ∀ k, ¬ k = name → getAnn (annWrite m name p).2 k = getAnn m k)
    ∧ (∀ b, getAnn m name = some (.bytes b) →
        (annWrite m name p).1 = (p.length, none)
        ∧ getAnn (annWrite m name p).2 name = some (.bytes (b ++ p))
        ∧ ∀ k, ¬ k = name → getAnn (annWrite m name p).2 k = getAnn m k) := by
  refine ⟨fun s0 h => ?_, fun n h => ?_, fun h => ?_, fun b h => ?_⟩
  · rw [annWrite, h]
  · rw [annWrite, h]
  · rw [annWrite, h]
    exact ⟨rfl, getAnn_setAnn_self m name _, fun k hk => getAnn_setAnn_other m name k _ hk⟩
  · rw [annWrite, h]
    exact ⟨rfl, getAnn_setAnn_self m name _, fun k hk => getAnn_setAnn_other m name k _ hk⟩

/-- C10 witness: a non-byte annotation rejects the write and the store is
untouched; a fresh name accepts it and holds exactly the written bytes. -/
theorem claim_C10_witness :
    annWrite wAnnStore ("x".toList) ("ab".toList)
      = ((0, some ("Annotation named ".toList ++ "x".toList
          ++ " already exists and is not a []byte".toList)), wAnnStore)
    ∧ getAnn (annWrite wAnnStore ("y".toList) ("ab".toList)).2 ("y".toList)
        = some (.bytes ("ab".toList)) :=
  ⟨(claim_C10 wAnnStore ("x".toList) ("ab".toList)).2.1 3 (by decide),
   ((claim_C10 wAnnStore ("y".toList) ("ab".toList)).2.2.1 (by decide)).2.1⟩

/-- C1: ingress rejects non-POST with 405 and a wrong content type with 400,
returns 400 with the builder's message when the batch cannot be built (which
covers both decode failures and remote addresses without a port — the latter
is why the spec's "otherwise 204" is too strong; see the counterexample),
and otherwise writes 204 and either enqueues without blocking or reports the
batch dropped, the queue unchanged, when it is full. -/
theorem claim_C1 (cap : Nat) (queue : List ReportBatch) (r : HttpRequest) (now : Int) :
    (¬ r.method = "POST".toList →
      processReports cap queue r now
        = ({ status := 405, body := "Must use POST to upload reports".toList }, queue,
           .httpError ("Must use POST to upload reports".toList)))
    ∧ (r.method = "POST".toList → ¬ r.contentType = "application/reports+json".toList →
      processReports cap queue r now
        = ({ status := 400, body := "Must use application/reports+json to upload reports".toList },
           queue, .httpError ("Must use application/reports+json to upload reports".toList)))
    ∧ (∀ e, r.method = "POST".toList → r.contentType = "application/reports+json".toList →
        newReportBatch r now = .error e →
        processReports cap queue r now = ({ status := 400, body := e }, queue, .httpError e))
    ∧ (∀ batch, r.method = "POST".toList → r.contentType = "application/reports+json".toList →
        newReportBatch r now = .ok batch → queue.length < cap →
        processReports cap queue r now
          = ({ status := 204, body := [] }, queue ++ [batch], .enqueued))
    ∧ (∀ batch, r.method = "POST".toList → r.contentType = "application/reports+json".toList →
        newReportBatch r now = .ok batch → ¬ queue.length < cap →
        processReports cap queue r now = ({ status := 204, body := [] }, queue, .dropped)) := by
  refine ⟨fun h1 => ?_, fun h1 h2 => ?_, fun e h1 h2 h3 => ?_,
    fun batch h1 h2 h3 h4 => ?_, fun batch h1 h2 h3 h4 => ?_⟩
  · rw [processReports, if_pos h1]
  · rw [processReports, if_neg (fun hc => hc h1), if_pos h2]
  · rw [processReports, if_neg (fun hc => hc h1), if_neg (fun hc => hc h2), h3]
  · rw [processReports, if_neg (fun hc => hc h1), if_neg (fun hc => hc h2), h3]
    dsimp only
    rw [if_pos h4]
  · rw [processReports, if_neg (fun hc => hc h1), if_neg (fun hc => hc h2), h3]
    dsimp only
    rw [if_neg h4]

/-- C1 counterexample: a POST with the right content type and a decodable
body, uploaded from a remote address without a port, gets 400 (with the
address error), not the claimed 204, and nothing is enqueued. -/
theorem claim_C1_counterexample :
    reqNoPort.method = "POST".toList
    ∧ reqNoPort.contentType = "application/reports+json".toList
    ∧ unmarshalReports reqNoPort.body = .ok []
    ∧ processReports 10 [] reqNoPort 0
        = ({ status := 400, body := "missing port in address".toList }, [],
           .httpError ("missing port in address".toList)) := by
  refine ⟨rfl, rfl, by decide, by decide⟩

/-- C1 witness: a valid request is answered 204 and its batch enqueued. -/
theorem claim_C1_witness :
    processReports 10 [] reqOK 0
      = ({ status := 204, body := [] }, [] ++ [okBatch], .enqueued) :=
  (claim_C1 10 [] reqOK 0).2.2.2.1 okBatch rfl rfl (by decide) (by decide)

/-- C4: the loader fails with exactly the specified message for the first
failing condition, in precedence order: unparseable document (including the
mixed-type arrays the TOML layer rejects), missing `processor` field, empty
array, a non-object entry (necessarily at index 0, since a reachable
non-object entry means every entry is a non-object), an entry without
`type`, an unknown type, and a factory error, the loop index appearing in
each per-entry message. -/
theorem claim_C4 (reg : LoaderReg) (procs : List Nat) :
    loadFromConfig reg procs .unparseable
      = (.error ("Invalid NEL configuration".toList), procs)
    ∧ loadFromConfig reg procs .noProcField
      = (.error ("NEL configuration missing `processors`".toList), procs)
    ∧ loadFromConfig reg procs (.procs [])
      = (.error ("NEL configuration `processors` array must be non-empty".toList), procs)
    ∧ (∀ l, mixedEntries l = true →
        loadFromConfig reg procs (.procs l)
          = (.error ("Invalid NEL configuration".toList), procs))
    ∧ (∀ rest, (∀ e ∈ rest, e = .notTable) →
        loadFromConfig reg procs (.procs (.notTable :: rest))
          = (.error ("Processor config 0 must be an object".toList), procs))
    ∧ (∀ idx rest, loadLoop reg procs idx (.table [] :: rest)
        = (.error ("Processor config ".toList ++ natDigits idx
            ++ " is missing `type`".toList), procs))
    ∧ (∀ idx ty rest, ¬ ty = [] → lookupReg reg ty = none →
        loadLoop reg procs idx (.table ty :: rest)
          = (.error ("Unknown processor type ".toList ++ ty
              ++ " for processor ".toList ++ natDigits idx), procs))
    ∧ (∀ idx ty rest e, ¬ ty = [] → lookupReg reg ty = some (.error e) →
        loadLoop reg procs idx (.table ty :: rest)
          = (.error ("Couldn't create a ".toList ++ ty ++ " for processor ".toList
              ++ natDigits idx ++ ": ".toList ++ e), procs))
    ∧ (∀ idx ty rest p, ¬ ty = [] → lookupReg reg ty = some (.ok p) →
        loadLoop reg procs idx (.table ty :: rest)
          = loadLoop reg (procs ++ [p]) (idx + 1) rest)
    ∧ (∀ e rest, ¬ mixedEntries (e :: rest) = true →
        loadFromConfig reg procs (.procs (e :: rest)) = loadLoop reg procs 0 (e :: rest)) := by
  refine ⟨rfl, rfl, rfl, fun l hl => ?_, fun rest hrest => ?_, fun idx rest => ?_,
    fun idx ty rest hty hreg => ?_, fun idx ty rest e hty hreg => ?_,
    fun idx ty rest p hty hreg => ?_, fun e rest hmix => ?_⟩
  · rw [loadFromConfig.eq_def]
    cases l with
    | nil => simp [mixedEntries] at hl
    | cons e rest =>
      rw [tomlUnmarshalCfg, if_pos hl]
  · have hmix : mixedEntries (.notTable :: rest) = false := by
      rw [mixedEntries]
      simp only [Bool.and_eq_false_iff]
      right
      rw [List.any_eq_false]
      intro e he
      rcases List.mem_cons.mp he with he | he
      · simp [he]
      · simp [hrest e he]
    rw [loadFromConfig.eq_def, tomlUnmarshalCfg, if_neg (by simp [hmix])]
    rfl
  · rw [loadLoop, if_pos rfl]
  · rw [loadLoop, if_neg hty, hreg]
  · rw [loadLoop, if_neg hty, hreg]
  · rw [loadLoop, if_neg hty, hreg]
  · rw [loadFromConfig.eq_def, tomlUnmarshalCfg, if_neg (by simp [hmix])]

/-- C4 witness: the per-entry messages at concrete indexes and registry. -/
theorem claim_C4_witness :
    loadFromConfig regK [] (.procs [.notTable, .notTable])
      = (.error ("Processor config 0 must be an object".toList), [])
    ∧ loadLoop regK [] 1 [.table "U".toList]
        = (.error ("Unknown processor type ".toList ++ "U".toList
            ++ " for processor ".toList ++ natDigits 1), []) :=
  ⟨(claim_C4 regK []).2.2.2.2.1 [.notTable] (by decide),
   (claim_C4 regK []).2.2.2.2.2.2.1 1 ("U".toList) [] (by decide) (by decide)⟩

/-- C5: a load never removes processors, but a failing load does keep every
processor added by the successful prefix of entries before the failure: the
pipeline's processor list after any load equals the original list plus the
processors of the longest successful prefix.  (This refutes the claim that
no partial pipeline ever exists; see the counterexample.) -/
theorem claim_C5 (reg : LoaderReg) (procs : List Nat) (doc : ConfigDoc) :
    (loadFromConfig reg procs doc).2
      = procs ++ (match tomlUnmarshalCfg doc with
          | .ok (some l) => goodPrefixProcs reg l
          | _ => []) := by
  rw [loadFromConfig.eq_def]
  cases htoml : tomlUnmarshalCfg doc with
  | error e => simp
  | ok o =>
    cases o with
    | none => simp
    | some l =>
      cases l with
      | nil => simp [goodPrefixProcs]
      | cons e rest =>
        dsimp only
        exact loadLoop_procs reg (e :: rest) procs 0

/-- C5 counterexample: with a registry knowing only `K`, loading
`[[processor]] type="K"` followed by `type="U"` fails with the unknown-type
error yet leaves the `K` processor added to the pipeline. -/
theorem claim_C5_counterexample :
    (loadFromConfig regK [] (.procs [.table "K".toList, .table "U".toList])).1
      = .error ("Unknown processor type U for processor 1".toList)
    ∧ (loadFromConfig regK [] (.procs [.table "K".toList, .table "U".toList])).2 = [7] := by
  refine ⟨by decide, by decide⟩

/-- C8: for OPTIONS requests `CORS.ServeHTTP` answers 200 with no body and
sets `Access-Control-Allow-Method` (singular — the plural header name of the
claim is absent; see the counterexample), `Access-Control-Allow-Headers` and
`Access-Control-Allow-Origin`, and passes every other method through
unchanged; `serveCORS` in pipeline.go is the variant that sets the plural
`Access-Control-Allow-Methods` trio. -/
theorem claim_C8 (inner : HttpRequest → HttpResponseH) (r : HttpRequest)
    (hs : List (Chars × Chars)) :
    (r.method = "OPTIONS".toList →
      (corsServeHTTP inner r).status = 200
      ∧ (corsServeHTTP inner r).body = []
      ∧ getHeader (corsServeHTTP inner r).headers ("Access-Control-Allow-Method".toList)
          = some ("POST".toList)
      ∧ getHeader (corsServeHTTP inner r).headers ("Access-Control-Allow-Headers".toList)
          = some ("Content-Type".toList)
      ∧ getHeader (corsServeHTTP inner r).headers ("Access-Control-Allow-Origin".toList)
          = some ("*".toList)
      ∧ getHeader (corsServeHTTP inner r).headers ("Access-Control-Allow-Methods".toList)
          = none)
    ∧ (¬ r.method = "OPTIONS".toList → corsServeHTTP inner r = inner r)
    ∧ getHeader (serveCORS hs) ("Access-Control-Allow-Methods".toList) = some ("POST".toList)
    ∧ getHeader (serveCORS hs) ("Access-Control-Allow-Headers".toList)
        = some ("Content-Type".toList)
    ∧ getHeader (serveCORS hs) ("Access-Control-Allow-Origin".toList) = some ("*".toList) := by
  refine ⟨fun h => ?_, fun h => ?_, ?_, ?_, ?_⟩
  · rw [corsServeHTTP, if_pos h]
    refine ⟨rfl, rfl, by decide, by decide, by decide, by decide⟩
  · rw [corsServeHTTP, if_neg h]
  · rw [serveCORS, getHeader_setHeader_other _ _ _ _ (by decide),
      getHeader_setHeader_other _ _ _ _ (by decide), getHeader_setHeader_self]
  · rw [serveCORS, getHeader_setHeader_other _ _ _ _ (by decide), getHeader_setHeader_self]
  · rw [serveCORS, getHeader_setHeader_self]

/-- C8 counterexample: on an OPTIONS request the CORS wrapper's response has
no `Access-Control-Allow-Methods` header (the header it sets is the singular
`Access-Control-Allow-Method`). -/
theorem claim_C8_counterexample :
    optionsReq.method = "OPTIONS".toList
    ∧ getHeader (corsServeHTTP wInner optionsReq).headers
        ("Access-Control-Allow-Methods".toList) = none
    ∧ getHeader (corsServeHTTP wInner optionsReq).headers
        ("Access-Control-Allow-Method".toList) = some ("POST".toList) := by
  refine ⟨rfl, by decide, by decide⟩

/-- C8 witness: the OPTIONS response on a concrete request, and the plural
headers set by `serveCORS` on an empty header map. -/
theorem claim_C8_witness :
    (corsServeHTTP wInner optionsReq).status = 200
    ∧ getHeader (serveCORS []) ("Access-Control-Allow-Methods".toList) = some ("POST".toList) :=
  ⟨((claim_C8 wInner optionsReq []).1 rfl).1, (claim_C8 wInner optionsReq []).2.2.1⟩

/-- C9: on every schedule of the hot-swap machine from an initial state with
handler `old` installed, (a) every dispatched request went to `old` or to
`new` — no request observes a partially installed handler, (b) the requests
dispatched to `old` and to `new` partition all dispatched requests, (c) the
swap closed the outgoing handler before (and whenever) the new one is
installed; and from any state, a request holding the read lock on handler
`h` finishes against `h`. -/
theorem claim_C9 :
    (∀ (old new n : Nat) (tr : List HSAct) (s : HSState),
      hsRun new (hsInit old n) tr = some s →
      (∀ p ∈ s.reqs, ∀ h, dispatchedTo p = some h → h = old ∨ h = new)
      ∧ (¬ old = new → countDispTo old s.reqs + countDispTo new s.reqs = countDisp s.reqs)
      ∧ ((s.swapPc = .installed ∨ s.swapPc = .finished) → s.closedOld = true))
    ∧ (∀ (new : Nat) (s1 : HSState) (tr : List HSAct) (s2 : HSState) (i h : Nat),
        s1.reqs[i]? = some (.reading h) → hsRun new s1 tr = some s2 →
        s2.reqs[i]? = some (.reading h) ∨ s2.reqs[i]? = some (.done h)) := by
  constructor
  · intro old new n tr s hrun
    have hinv := hsInv_run old new tr (hsInit old n) s (hsInv_init old new n) hrun
    obtain ⟨h1, h2, h3, h4⟩ := hinv
    exact ⟨h4, fun hne => disp_partition old new hne s.reqs h4, fun hpc => (h2 hpc).2⟩
  · intro new s1 tr s2 i h hr hrun
    exact hsRun_pinned new tr s1 s2 i h hr hrun

/-- C9 witness: a concrete schedule — one request served before the swap,
the swap, one request after — reaches a final state where the dispatch
counts partition, the swap closed the old handler, and a mid-flight request
stays pinned to the handler it started with. -/
theorem claim_C9_witness :
    (countDispTo 1 wFinal.reqs + countDispTo 2 wFinal.reqs = countDisp wFinal.reqs
      ∧ wFinal.closedOld = true)
    ∧ (wMid2.reqs[0]? = some (.reading 1) ∨ wMid2.reqs[0]? = some (.done 1)) :=
  ⟨⟨(claim_C9.1 1 2 2 wTrace wFinal (by decide)).2.1 (by decide),
    (claim_C9.1 1 2 2 wTrace wFinal (by decide)).2.2 (.inr (by decide))⟩,
   claim_C9.2 2 wMid [.reqRelease 0] wMid2 0 1 (by decide) (by decide)⟩

/-- C2: a parsed report is either a NEL report with empty `RawBody`, or a
non-NEL report with every typed NEL field zero-valued and `RawBody` a
contiguous slice of the input bytes; and on the repository's two test
payloads the decoder produces exactly the expected reports, the non-NEL one
carrying the body sub-object byte-for-byte. -/
theorem claim_C2 :
    (∀ (fuel : Nat) (s : Chars) (r : NelReport) (rest : Chars),
      parseReport fuel s = .ok (r, rest) →
      (r.reportType = networkError → r.rawBody = [])
      ∧ (¬ r.reportType = networkError →
          r.referrer = [] ∧ r.samplingFraction = (0, 0) ∧ r.serverIP = []
          ∧ r.protocol = [] ∧ r.method = [] ∧ r.statusCode = 0 ∧ r.elapsedTime = 0
          ∧ r.phase = [] ∧ r.typ = []
          ∧ ∃ pre post, pre ++ r.rawBody ++ post = s))
    ∧ unmarshalReports nelTestVector = .ok [nelTestReport]
    ∧ unmarshalReports otherTestVector = .ok [otherTestReport]
    ∧ otherTestReport.rawBody = ("\x7b\"random\": \"stuff\", \"ignore\": 100\x7d").toList :=
  ⟨parseReport_rawBody, by decide, by decide, rfl⟩

/-- C2 witness: the dichotomy applied to the parse of a concrete non-NEL
report object. -/
theorem claim_C2_witness :
    (wRep.reportType = networkError → wRep.rawBody = [])
    ∧ (¬ wRep.reportType = networkError →
        wRep.referrer = [] ∧ wRep.samplingFraction = (0, 0) ∧ wRep.serverIP = []
        ∧ wRep.protocol = [] ∧ wRep.method = [] ∧ wRep.statusCode = 0
        ∧ wRep.elapsedTime = 0 ∧ wRep.phase = [] ∧ wRep.typ = []
        ∧ ∃ pre post, pre ++ wRep.rawBody ++ post = wRepObj) :=
  claim_C2.1 (jfuel wRepObj) wRepObj wRep [] (by decide)

end NelCollector